import Mathlib

/-!
# go-functools: the reflective struct flattener and the slice combinators

A shallow embedding of `StructToMapByTag`, `StructToMap` and `PhoneMasking`
from `main.go`, with the combinators they are built from (`Find`, `FindIf`,
`Identity`, `Bind2First`, `ReverseParamter`), and of the slice functions
`Reduce`, `Max`, `Min`, `Foldl`, `FoldR`, `Zip`, `Unique`, `UniqueWithEqFun`,
`AndSlice` and `SubSlice`.

Go values are modelled as finite trees (`Value`): scalars, pointers (possibly
nil), structs with named and tagged fields, slices, arrays and maps.  Struct
fields carry their package path, empty exactly for an exported field:
`reflect` refuses `Interface()` on what is reached through an unexported
field.  A place of interface type is a value of its own (`iface`), of kind
`Interface` whatever it holds.  Cyclic values have no representation.  A Go
panic is the `error` side of `Except`, with the message of the panic.

A Go map used as a set is the list of its keys with their marks; the order in
which `range` visits the keys is left to the runtime by the language, so the
functions that range over a map take that order as an argument.
-/

namespace GoFunctools

/-! ## Generic combinators of `main.go` -/

/-- FindIf (main.go 116-123): the index of the first item accepted by the
predicate together with `true`, or `(0, false)` when there is none. -/
def FindIf {T U : Type} (key : T) (data : List U) (predicate : T → U → Bool) : Nat × Bool :=
  go 0 data
where
  go (idx : Nat) : List U → Nat × Bool
    | [] => (0, false)
    | item :: rest => if predicate key item then (idx, true) else go (idx + 1) rest

/-- Find (main.go 126-130): `FindIf` with `==` on the projected key. -/
def Find {T U : Type} [DecidableEq T] (key : T) (data : List U) (keyFunc : U → T) : Nat × Bool :=
  FindIf key data (fun t u => decide (t = keyFunc u))

/-- Identity (main.go 133-135). -/
def Identity {T : Type} (value : T) : T := value

/-- The `reflect.Kind`s that the modelled values can have. -/
inductive Kind
  | Invalid
  | Bool
  | Int
  | String
  | Pointer
  | Struct
  | Slice
  | Array
  | Map
  | Interface
  deriving DecidableEq

/-- Scalar leaves: booleans, numbers and strings. -/
inductive Scalar
  | bool (b : Bool)
  | int (n : Int)
  | str (s : String)
  deriving DecidableEq

/-- Keys of a Go map value: a key of kind `String`, or a key of any other
kind, given by the name of its type as `Type().String()` prints it (`int`,
`int64`, `bool`, `interface {}`, ...) and a number that tells the keys of
that type apart. -/
inductive MapKey
  | str (s : String)
  | other (typeName : String) (code : Int)
  deriving DecidableEq

mutual
/-- A Go value as `reflect` finds it in its place.  `ptr none` is a nil
pointer; `slice []` and `map []` stand for both the nil and the empty
container (their `Len` is 0 either way).  The entries of a map are listed in
the order in which `MapKeys` yields them.  `iface held` is what sits in a
place of interface type (a field, element, entry or pointer target declared
`interface{}`): its kind is `Interface` whatever it holds, and it holds a
value that is not itself an `iface`, or nothing. -/
inductive Value
  | scalar (s : Scalar)
  | ptr (target : Option Value)
  | struct (fields : List StructField)
  | slice (elems : List Value)
  | array (elems : List Value)
  | map (entries : List (MapKey × Value))
  | iface (held : Option Value)
/-- A struct field as `reflect.StructField` describes it: its name, its
package path (empty exactly when the field is exported), its tag as key/value
pairs, and its value. -/
inductive StructField
  | mk (name : String) (pkgPath : String) (tags : List (String × String)) (value : Value)
end

/-- The name of a field (`fi.Name`). -/
def StructField.name : StructField → String
  | .mk n _ _ _ => n

/-- The package path of a field (`fi.PkgPath`): empty for an exported field. -/
def StructField.pkgPath : StructField → String
  | .mk _ p _ _ => p

/-- The tag of a field (`fi.Tag`), as the key/value pairs it spells. -/
def StructField.tags : StructField → List (String × String)
  | .mk _ _ t _ => t

/-- The value of a field (`v.Field(i)`). -/
def StructField.value : StructField → Value
  | .mk _ _ _ v => v

/-- The flag that `reflect` sets on the value of an unexported field, and on
every element, entry and target reached through it. -/
def StructField.readOnly (fi : StructField) : Bool :=
  decide (fi.pkgPath ≠ "")

/-- The reflect kind of a value (`Value.Kind()`). -/
def Value.kind : Value → Kind
  | .scalar (.bool _) => Kind.Bool
  | .scalar (.int _) => Kind.Int
  | .scalar (.str _) => Kind.String
  | .ptr _ => Kind.Pointer
  | .struct _ => Kind.Struct
  | .slice _ => Kind.Slice
  | .array _ => Kind.Array
  | .map _ => Kind.Map
  | .iface _ => Kind.Interface

/-- The kind of `v.Elem()` for a pointer `v`: `Invalid` for a nil pointer
(and for anything that is not a pointer, where the code never asks). -/
def Value.elemKind : Value → Kind
  | .ptr (some t) => t.kind
  | _ => Kind.Invalid

/-- The length of a slice, array or map (`Value.Len()`); the code asks for it
only when the kind is one of these three. -/
def Value.len : Value → Nat
  | .slice es => es.length
  | .array es => es.length
  | .map en => en.length
  | _ => 0

/-- The elements of a slice or array, in index order (`Value.Index`). -/
def Value.elems : Value → List Value
  | .slice es => es
  | .array es => es
  | _ => []

/-- The entries of a map, in the order of `Value.MapKeys` (`Value.MapIndex`). -/
def Value.entries : Value → List (MapKey × Value)
  | .map en => en
  | _ => []

/-- What `Value.Interface()` hands over when it does not panic: the value
itself, or, for a place of interface type, what it holds (a nil interface
stays `iface none`). -/
def Value.Interface : Value → Value
  | .iface (some held) => held
  | v => v

/-- The lookup `StructTag.Get(key)`: the value of the first pair with that
key, the empty string when there is none. -/
def tagGet (tags : List (String × String)) (key : String) : String :=
  match tags with
  | [] => ""
  | (k, v) :: rest => if k = key then v else tagGet rest key

/-- The rendering `reflect.Value.String()` of a map key: the string itself
for a key of kind `String`, and for any other kind the placeholder
`<T Value>` with `T` the name of the type of the key; it never panics. -/
def MapKey.String : MapKey → String
  | .str s => s
  | .other typeName _ => "<" ++ typeName ++ " Value>"

/-! ## The output of flattening -/

/-- What a `map[string]interface{}` entry can hold: a Go value stored as is
(`raw`), a nested `map[string]interface{}` (`node`), or a `[]interface{}`
(`seq`). -/
inductive FlatValue
  | raw (v : Value)
  | node (m : List (String × FlatValue))
  | seq (xs : List FlatValue)

/-- The type `map[string]interface{}`, as an association list with distinct keys. -/
abbrev FlatMap := List (String × FlatValue)

/-- The assignment `m[k] = v`: replaces the entry under `k` or adds one. -/
def mapSet {α : Type} (m : List (String × α)) (k : String) (v : α) : List (String × α) :=
  match m with
  | [] => [(k, v)]
  | (k', v') :: rest => if k' = k then (k, v) :: rest else (k', v') :: mapSet rest k v

/-- The lookup `m[k]`, `none` when the key is absent. -/
def mapGet {α : Type} (m : List (String × α)) (k : String) : Option α :=
  match m with
  | [] => none
  | (k', v') :: rest => if k' = k then some v' else mapGet rest k

/-- The keys of a map. -/
def mapKeys {α : Type} (m : List (String × α)) : List String :=
  m.map Prod.fst

/-- The message of the panic raised by `StructToMapByTag` itself (main.go
211): `%T` of a `reflect.Value` always prints `reflect.Value`. -/
def panicMsg : String := "ToMap only accepts structs; got reflect.Value"

/-- The message of the panic that `Value.Interface()` raises on a read-only
value, one reached through an unexported field. -/
def interfacePanicMsg : String :=
  "reflect.Value.Interface: cannot return value obtained from unexported field or method"

/-- The four kinds for which a map entry is flattened recursively (main.go 237-239). -/
def recursedKinds : List Kind := [Kind.Array, Kind.Struct, Kind.Slice, Kind.Map]

/-! ## `StructToMapByTag` -/

mutual
/-- StructToMapByTag (main.go 201-258).  The argument arrives as an
`interface{}`, so what sits in a place of interface type arrives as what it
holds.  A pointer is followed once (204-207); anything that is then not a
struct panics (210-212); otherwise the fields are walked in order into a
fresh map. -/
def StructToMapByTag (value : Value) (tag : String) : Except String FlatMap :=
  match value with
  | .struct fs => fieldLoop fs tag []
  | .ptr (some (.struct fs)) => fieldLoop fs tag []
  | .iface (some (.struct fs)) => fieldLoop fs tag []
  | .iface (some (.ptr (some (.struct fs)))) => fieldLoop fs tag []
  | _ => .error panicMsg
/-- The loop over the fields (main.go 215-256), `result` being the map built
so far.  With a non-empty `tag` a field whose tag lookup is empty is skipped,
any other is renamed to the tag value (219-225).  The value stored for a
field (227-254): a non-empty map goes through `entryLoop` (233-245), a
non-empty slice or array through `elemLoop` (246-254); everything else, empty
containers and places of interface type included, is flattened when its kind
is `Struct`, or `Pointer` with a target of kind `Struct`, and stored as
`Interface()` hands it over otherwise (227-232).  Every one of these reads
the field with `Interface()`, which panics when the field is unexported. -/
def fieldLoop (fs : List StructField) (tag : String) (result : FlatMap) :
    Except String FlatMap :=
  match fs with
  | [] => .ok result
  | .mk fname fpkg ftags fvalue :: rest =>
    if tag ≠ "" ∧ tagGet ftags tag = "" then
      fieldLoop rest tag result
    else
      let name := if tag ≠ "" then tagGet ftags tag else fname
      let readOnly : Bool := decide (fpkg ≠ "")
      let stored : Except String FlatValue :=
        match fvalue with
        | .map (en :: ens) =>
          match entryLoop readOnly (en :: ens) tag [] with
          | .ok tmp => .ok (.node tmp)
          | .error e => .error e
        | .slice (el :: els) =>
          match elemLoop readOnly (el :: els) tag [] with
          | .ok tmp => .ok (.seq tmp)
          | .error e => .error e
        | .array (el :: els) =>
          match elemLoop readOnly (el :: els) tag [] with
          | .ok tmp => .ok (.seq tmp)
          | .error e => .error e
        | w =>
          if w.kind = Kind.Struct ∨ (w.kind = Kind.Pointer ∧ w.elemKind = Kind.Struct) then
            if readOnly then .error interfacePanicMsg
            else
              match StructToMapByTag w tag with
              | .ok m => .ok (.node m)
              | .error e => .error e
          else
            if readOnly then .error interfacePanicMsg
            else .ok (.raw w.Interface)
      match stored with
      | .ok x => fieldLoop rest tag (mapSet result name x)
      | .error e => .error e
/-- The loop over the entries of a non-empty map (main.go 235-244),
`readOnly` telling whether the map was reached through an unexported field: a
value whose kind is not among `recursedKinds` (a place of interface type
among them) is stored as `Interface()` hands it over, any other is flattened;
the key is rendered with `String()`. -/
def entryLoop (readOnly : Bool) (entries : List (MapKey × Value)) (tag : String)
    (tmp : FlatMap) : Except String FlatMap :=
  match entries with
  | [] => .ok tmp
  | (key, value) :: rest =>
    if (Find value.kind recursedKinds Identity).2 = false then
      if readOnly then .error interfacePanicMsg
      else entryLoop readOnly rest tag (mapSet tmp key.String (.raw value.Interface))
    else
      if readOnly then .error interfacePanicMsg
      else
        match StructToMapByTag value tag with
        | .ok m => entryLoop readOnly rest tag (mapSet tmp key.String (.node m))
        | .error e => .error e
/-- The loop over the elements of a non-empty slice or array (main.go
247-252), `readOnly` telling whether it was reached through an unexported
field: every element is handed over by `Interface()`, flattened and
appended. -/
def elemLoop (readOnly : Bool) (elems : List Value) (tag : String) (tmp : List FlatValue) :
    Except String (List FlatValue) :=
  match elems with
  | [] => .ok tmp
  | el :: rest =>
    if readOnly then .error interfacePanicMsg
    else
      match StructToMapByTag el tag with
      | .ok m => elemLoop readOnly rest tag (tmp ++ [.node m])
      | .error e => .error e
end

/-- A field takes part in the output (main.go 219-225): always with the empty
tag, otherwise only when its tag lookup is non-empty. -/
def selected (fi : StructField) (tag : String) : Prop :=
  tag = "" ∨ tagGet fi.tags tag ≠ ""

instance (fi : StructField) (tag : String) : Decidable (selected fi tag) :=
  inferInstanceAs (Decidable (_ ∨ _))

/-- The key under which a selected field is stored (main.go 218-221). -/
def exposedName (fi : StructField) (tag : String) : String :=
  if tag ≠ "" then tagGet fi.tags tag else fi.name

/-- The value stored for a field whose value is `v` (main.go 227-254), the
`stored` of `fieldLoop` as a function of its own; `readOnly` tells whether
the field is unexported. -/
def storedValue (readOnly : Bool) (v : Value) (tag : String) : Except String FlatValue :=
  match v with
  | .map (en :: ens) =>
    match entryLoop readOnly (en :: ens) tag [] with
    | .ok tmp => .ok (.node tmp)
    | .error e => .error e
  | .slice (el :: els) =>
    match elemLoop readOnly (el :: els) tag [] with
    | .ok tmp => .ok (.seq tmp)
    | .error e => .error e
  | .array (el :: els) =>
    match elemLoop readOnly (el :: els) tag [] with
    | .ok tmp => .ok (.seq tmp)
    | .error e => .error e
  | w =>
    if w.kind = Kind.Struct ∨ (w.kind = Kind.Pointer ∧ w.elemKind = Kind.Struct) then
      if readOnly then .error interfacePanicMsg
      else
        match StructToMapByTag w tag with
        | .ok m => .ok (.node m)
        | .error e => .error e
    else
      if readOnly then .error interfacePanicMsg
      else .ok (.raw w.Interface)

/-- The value stored for the field `fi`, or the panic raised on the way. -/
def fieldValue (fi : StructField) (tag : String) : Except String FlatValue :=
  storedValue fi.readOnly fi.value tag

/-- Lines 227-254 of main.go spelled with the tests of the source, on the kind
and the length of the field; `storedValue` is the same function
(`storedValue_eq_byKind`). -/
def storedValueByKind (readOnly : Bool) (v : Value) (tag : String) :
    Except String FlatValue :=
  if (v.kind ≠ Kind.Slice ∧ v.kind ≠ Kind.Array ∧ v.kind ≠ Kind.Map) ∨ v.len = 0 then
    if v.kind = Kind.Struct ∨ (v.kind = Kind.Pointer ∧ v.elemKind = Kind.Struct) then
      if readOnly then .error interfacePanicMsg
      else
        match StructToMapByTag v tag with
        | .ok m => .ok (.node m)
        | .error e => .error e
    else
      if readOnly then .error interfacePanicMsg
      else .ok (.raw v.Interface)
  else if v.kind = Kind.Map then
    match entryLoop readOnly v.entries tag [] with
    | .ok tmp => .ok (.node tmp)
    | .error e => .error e
  else
    match elemLoop readOnly v.elems tag [] with
    | .ok tmp => .ok (.seq tmp)
    | .error e => .error e

/-- The value stored for a map entry whose value is `value` (main.go
236-243), `readOnly` telling whether the map was reached through an
unexported field. -/
def entryValue (readOnly : Bool) (value : Value) (tag : String) : Except String FlatValue :=
  if (Find value.kind recursedKinds Identity).2 = false then
    if readOnly then .error interfacePanicMsg
    else .ok (.raw value.Interface)
  else
    if readOnly then .error interfacePanicMsg
    else
      match StructToMapByTag value tag with
      | .ok m => .ok (.node m)
      | .error e => .error e

/-- Stores a list of computed entries into a map in order, stopping at the
first failed computation: the common shape of `fieldLoop` and `entryLoop`. -/
def storeAll (items : List (String × Except String FlatValue)) (acc : FlatMap) :
    Except String FlatMap :=
  match items with
  | [] => .ok acc
  | (k, .ok x) :: rest => storeAll rest (mapSet acc k x)
  | (_, .error e) :: _ => .error e

/-- The entries that `fieldLoop` stores: one per selected field. -/
def fieldItems (fs : List StructField) (tag : String) :
    List (String × Except String FlatValue) :=
  (fs.filter (fun fi => decide (selected fi tag))).map
    (fun fi => (exposedName fi tag, fieldValue fi tag))

/-- The entries that `entryLoop` stores: one per map entry. -/
def entryItems (readOnly : Bool) (entries : List (MapKey × Value)) (tag : String) :
    List (String × Except String FlatValue) :=
  entries.map (fun en => (en.1.String, entryValue readOnly en.2 tag))

/-- The test of main.go 228, which is also what the top of `StructToMapByTag`
accepts (204-212): a struct, or a pointer whose target is a struct. -/
def resolvesToStruct (v : Value) : Prop :=
  v.kind = Kind.Struct ∨ (v.kind = Kind.Pointer ∧ v.elemKind = Kind.Struct)

instance (v : Value) : Decidable (resolvesToStruct v) :=
  inferInstanceAs (Decidable (_ ∨ _))

/-- The call on the record `pre ++ fi :: post` reaches the field `fi` with the
map `mid` built from the fields before it, assigns `x` under the exposed name
of `fi` (main.go 229, 231, 245, 253), and ends with `out` after walking the
fields behind it. -/
def storesForField (pre post : List StructField) (fi : StructField) (tag : String)
    (x : FlatValue) (out : FlatMap) : Prop :=
  ∃ mid, fieldLoop pre tag [] = .ok mid ∧
    fieldLoop post tag (mapSet mid (exposedName fi tag) x) = .ok out

/-- No field behind `fi` is stored under the exposed name of `fi`. -/
def notOverwritten (post : List StructField) (fi : StructField) (tag : String) : Prop :=
  ∀ g ∈ post, selected g tag → exposedName g tag ≠ exposedName fi tag

/-- The value `v` behind `n` levels of pointer. -/
def wrapPtr : Nat → Value → Value
  | 0, v => v
  | n + 1, v => .ptr (some (wrapPtr n v))

/-! ## `PhoneMasking` -/

/-- PhoneMasking (main.go 357-368) on the runes of `phone`: a string of fewer
than five runes is returned as it is; otherwise the index `m` runs over the
runes and the rune at `m` becomes an asterisk when `m > 2` and
`m < len(str) - 2`. -/
def PhoneMasking (phone : String) : String :=
  let str := phone.toList
  if str.length < 5 then
    phone
  else
    String.mk ((List.range str.length).foldl
      (fun (cur : List Char) (m : Nat) =>
        if m > 2 ∧ m < cur.length - 2 then cur.set m '*' else cur) str)

/-! ## Concrete records -/

/-- The scalar fields of the record of `TestStructToMap` (main_test.go 40-70). -/
def personFields : List StructField :=
  [.mk "FirstName" "" [] (.scalar (.str "jiaran")),
   .mk "LastName" "" [] (.scalar (.str "wang")),
   .mk "Age" "" [] (.scalar (.int 23))]

/-- A record with two fields tagged under `json` and one without a tag. -/
def taggedFields : List StructField :=
  [.mk "FirstName" "" [("json", "first_name")] (.scalar (.str "jiaran")),
   .mk "Secret" "" [("form", "secret")] (.scalar (.str "hidden")),
   .mk "Age" "" [("json", "age"), ("form", "years")] (.scalar (.int 23))]

/-- The record `{A: n}`. -/
def recordA (n : Int) : Value :=
  .struct [.mk "A" "" [] (.scalar (.int n))]

/-- The record `{Inner: {A: 1}}`. -/
def innerRecord : Value :=
  .struct [.mk "Inner" "" [] (recordA 1)]

/-- A field holding the sequence `[{A:1},{A:2}]`. -/
def listField : StructField :=
  .mk "List" "" [] (.slice [recordA 1, recordA 2])

/-- A field holding an empty slice. -/
def emptyField : StructField :=
  .mk "Empty" "" [] (.slice [])

/-- The entries of the `Map` field of `TestStructToMap` (main_test.go 56-62). -/
def testMapEntries : List (MapKey × Value) :=
  [(.str "1", .struct [.mk "Key1" "" [] (.scalar (.str "value1")),
                       .mk "Key2" "" [] (.scalar (.str "value2"))]),
   (.str "2", .struct [.mk "Key1" "" [] (.scalar (.str "value1_")),
                       .mk "Key2" "" [] (.scalar (.str "value2_"))])]

/-- The `Map` field of `TestStructToMap`. -/
def testMapField : StructField :=
  .mk "Map" "" [] (.map testMapEntries)

/-- The flattening of the `Map` field of `TestStructToMap`. -/
def testMapFlat : FlatMap :=
  [("1", .node [("Key1", .raw (.scalar (.str "value1"))),
                ("Key2", .raw (.scalar (.str "value2")))]),
   ("2", .node [("Key1", .raw (.scalar (.str "value1_"))),
                ("Key2", .raw (.scalar (.str "value2_")))])]

/-- The flattening of the record holding only `listField`. -/
def listFlat : FlatMap :=
  [("List", .seq [.node [("A", .raw (.scalar (.int 1)))],
                  .node [("A", .raw (.scalar (.int 2)))]])]

/-- The flattening of `{Outer: {Inner: {A: 1}}}`. -/
def outerFlat : FlatMap :=
  [("Outer", .node [("Inner", .node [("A", .raw (.scalar (.int 1)))])])]

/-- The field `Outer` holding `{Inner: {A: 1}}`. -/
def outerField : StructField :=
  .mk "Outer" "" [] innerRecord

/-- A scalar field tagged `json:"name"`. -/
def laterField : StructField :=
  .mk "Later" "" [("json", "name")] (.scalar (.int 5))

/-- A field tagged `json:"name"` holding the record `{A: 1}`. -/
def taggedRecordField : StructField :=
  .mk "Outer" "" [("json", "name")] (recordA 1)

/-- A field tagged `json:"name"` holding the sequence `[{A:1},{A:2}]`. -/
def taggedListField : StructField :=
  .mk "List" "" [("json", "name")] (.slice [recordA 1, recordA 2])

/-- A field tagged `json:"name"` holding an empty slice. -/
def taggedEmptyField : StructField :=
  .mk "Empty" "" [("json", "name")] (.slice [])

/-- A field tagged `json:"name"` holding the map of `TestStructToMap`. -/
def taggedMapField : StructField :=
  .mk "Map" "" [("json", "name")] (.map testMapEntries)

/-! ## Combinators over slices -/

/-- Reduce (main.go 69-75): `result` starts at `init` and takes
`fun(result, item)` for every item in order. -/
def Reduce {T U : Type} (data : List T) (fn : U → T → U) (init : U) : U :=
  match data with
  | [] => init
  | item :: rest => Reduce rest fn (fn init item)

/-- Greater (main.go 89-91). -/
def Greater {T : Type} [LT T] [DecidableRel (fun a b : T => a < b)] (a b : T) : Bool :=
  decide (b < a)

/-- Less (main.go 93-95). -/
def Less {T : Type} [LT T] [DecidableRel (fun a b : T => a < b)] (a b : T) : Bool :=
  decide (a < b)

/-- The message of the runtime panic raised by `data[0]` on an empty slice. -/
def indexPanicMsg : String := "runtime error: index out of range [0] with length 0"

/-- Max (main.go 97-104): `Reduce` from `data[0]`, moving to the current item
when `lessFunc(prev, cur)`; indexing an empty `data` panics. -/
def Max {T : Type} (lessFunc : T → T → Bool) (data : List T) : Except String T :=
  match data with
  | [] => .error indexPanicMsg
  | first :: _ =>
    .ok (Reduce data (fun prev cur => if lessFunc prev cur then cur else prev) first)

/-- Min (main.go 106-108): `Max` over the negated comparison. -/
def Min {T : Type} (lessFunc : T → T → Bool) (data : List T) : Except String T :=
  Max (fun a b => !lessFunc a b) data

/-- Foldl (main.go 137-142): the fold of the tail is combined with `data[0]`. -/
def Foldl {T U : Type} (init : U) (fn : U → T → U) (data : List T) : U :=
  match data with
  | [] => init
  | first :: rest => fn (Foldl init fn rest) first

/-- FoldR (main.go 144-149): `init` is combined with `data[0]` and the tail is
folded from there. -/
def FoldR {T U : Type} (init : U) (fn : U → T → U) (data : List T) : U :=
  match data with
  | [] => init
  | first :: rest => FoldR (fn init first) fn rest

/-- Tuple (main.go 412-415). -/
structure Tuple (T U : Type) where
  /-- The first component. -/
  First : T
  /-- The second component. -/
  Second : U
  deriving DecidableEq

/-- The loop of `Zip` (main.go 421-428): while both slices have an element at
the common index, the pair is appended and the index advances. -/
def zipLoop {T U : Type} : List T → List U → List (Tuple T U) → List (Tuple T U)
  | x :: xs, y :: ys, result => zipLoop xs ys (result ++ [⟨x, y⟩])
  | _, _, result => result

/-- Zip (main.go 417-430). -/
def Zip {T U : Type} (s1 : List T) (s2 : List U) : List (Tuple T U) :=
  zipLoop s1 s2 []

/-! ## Go maps used as sets, and the slice set operations -/

/-- The assignment `m[k] = v` on a Go map, given as the list of its entries
(distinct keys, in the order in which the keys were first assigned). -/
def goMapSet {K V : Type} [DecidableEq K] (m : List (K × V)) (k : K) (v : V) : List (K × V) :=
  match m with
  | [] => [(k, v)]
  | (k2, v2) :: rest => if k2 = k then (k, v) :: rest else (k2, v2) :: goMapSet rest k v

/-- The presence test `_, ok := m[k]`. -/
def goMapHas {K V : Type} [DecidableEq K] (m : List (K × V)) (k : K) : Bool :=
  match m with
  | [] => false
  | (k2, _) :: rest => if k2 = k then true else goMapHas rest k

/-- The loop `for k := range m { keys = append(keys, k) }`: every key is
visited once, in an order that Go leaves to the runtime; `order` is that
choice, a rearrangement of the keys. -/
def rangeKeys {K V : Type} (order : List K → List K) (m : List (K × V)) : List K :=
  order (m.map Prod.fst)

/-- The loop `for _, item := range data { m[item] = true }` (main.go 282-284,
318-320, 339-341). -/
def markAll {T : Type} [DecidableEq T] : List T → List (T × Bool) → List (T × Bool)
  | [], m => m
  | item :: rest, m => markAll rest (goMapSet m item true)

/-- Unique (main.go 276-290): the keys of the map that marks every item. -/
def Unique {T : Type} [DecidableEq T] (order : List T → List T) (data : List T) : List T :=
  if data.length < 1 then
    []
  else
    rangeKeys order (markAll data [])

/-- The inner loop of `UniqueWithEqFun` (main.go 300-306): `ok` becomes false
at the first item of `result` that `eqFun` relates to `item`. -/
def noneEqual {T : Type} (eqFun : T → T → Bool) (item : T) : List T → Bool
  | [] => true
  | alreadyInItem :: rest => if eqFun item alreadyInItem then false else noneEqual eqFun item rest

/-- The outer loop of `UniqueWithEqFun` (main.go 299-310). -/
def uniqueLoop {T : Type} (eqFun : T → T → Bool) : List T → List T → List T
  | [], result => result
  | item :: rest, result =>
    if noneEqual eqFun item result then uniqueLoop eqFun rest (result ++ [item])
    else uniqueLoop eqFun rest result

/-- UniqueWithEqFun (main.go 293-312). -/
def UniqueWithEqFun {T : Type} (data : List T) (eqFun : T → T → Bool) : List T :=
  if data.length < 2 then
    data
  else
    uniqueLoop eqFun data []

/-- The loop of `AndSlice` (main.go 322-326): an item of `a` that is a key of
`bMap` is marked. -/
def andLoop {T : Type} [DecidableEq T] (bMap : List (T × Bool)) :
    List T → List (T × Bool) → List (T × Bool)
  | [], resultMap => resultMap
  | item :: rest, resultMap =>
    if goMapHas bMap item then andLoop bMap rest (goMapSet resultMap item true)
    else andLoop bMap rest resultMap

/-- AndSlice (main.go 315-333). -/
def AndSlice {T : Type} [DecidableEq T] (order : List T → List T) (a b : List T) : List T :=
  rangeKeys order (andLoop (markAll b []) a [])

/-- The loop of `SubSlice` (main.go 343-347): an item of `a` that is not a key
of `bMap` is marked. -/
def subLoop {T : Type} [DecidableEq T] (bMap : List (T × Bool)) :
    List T → List (T × Bool) → List (T × Bool)
  | [], resultMap => resultMap
  | item :: rest, resultMap =>
    if !goMapHas bMap item then subLoop bMap rest (goMapSet resultMap item true)
    else subLoop bMap rest resultMap

/-- SubSlice (main.go 336-354). -/
def SubSlice {T : Type} [DecidableEq T] (order : List T → List T) (a b : List T) : List T :=
  rangeKeys order (subLoop (markAll b []) a [])

/-- A comparison that is a strict total order: irreflexive, transitive, and
relating any two different values one way or the other. -/
def IsStrictTotalOrder {T : Type} (lessFunc : T → T → Bool) : Prop :=
  (∀ a, lessFunc a a = false) ∧
  (∀ a b c, lessFunc a b = true → lessFunc b c = true → lessFunc a c = true) ∧
  (∀ a b, a ≠ b → lessFunc a b = true ∨ lessFunc b a = true)

/-- An equality test that is an equivalence relation. -/
def IsEquivalence {T : Type} (eqFun : T → T → Bool) : Prop :=
  (∀ a, eqFun a a = true) ∧
  (∀ a b, eqFun a b = true → eqFun b a = true) ∧
  (∀ a b c, eqFun a b = true → eqFun b c = true → eqFun a c = true)

/-- The words of the claim on `Foldl`: the elements are combined from the
last to the first, `fun(...fun(fun(init, x_n), x_{n-1})..., x_1)`. -/
def combineFromLast {T U : Type} (init : U) (fn : U → T → U) (data : List T) : U :=
  data.foldr (fun x acc => fn acc x) init

/-- The words of the claim on `FoldR`: the elements are combined from the
first to the last, `fun(...fun(fun(init, x_1), x_2)..., x_n)`. -/
def combineFromFirst {T U : Type} (init : U) (fn : U → T → U) (data : List T) : U :=
  data.foldl fn init

/-- The test "same remainder modulo 2" on numbers. -/
def sameParity (a b : Int) : Bool :=
  decide (a % 2 = b % 2)

/-- The record `struct{name string}` whose one field is unexported and tagged
`json:"n"`. -/
def taggedUnexportedFields : List StructField :=
  [.mk "name" "main" [("json", "n")] (.scalar (.str "jiaran"))]

/-- A field `I interface{}` holding the record `{A: 1}`. -/
def ifaceRecordField : StructField :=
  .mk "I" "" [] (.iface (some (recordA 1)))

/-- A field `I interface{}` holding the sequence `[{A:1},{A:2}]`. -/
def ifaceListField : StructField :=
  .mk "I" "" [] (.iface (some (.slice [recordA 1, recordA 2])))

/-- An unexported field `items` holding an empty slice. -/
def unexportedEmptyField : StructField :=
  .mk "items" "main" [] (.slice [])

/-- A field `M map[string]interface{}` whose one entry holds the record `{A: 1}`. -/
def ifaceMapField : StructField :=
  .mk "M" "" [] (.map [(.str "a", .iface (some (recordA 1)))])

theorem mapGet_mapSet_self {α : Type} (m : List (String × α)) (k : String) (v : α) :
    mapGet (mapSet m k v) k = some v := by
  induction m with
  | nil => simp [mapSet, mapGet]
  | cons hd tl ih =>
    obtain ⟨k', v'⟩ := hd
    by_cases h : k' = k
    · simp [mapSet, mapGet, h]
    · simp [mapSet, mapGet, h, ih]

theorem mapGet_mapSet_ne {α : Type} (m : List (String × α)) (k k2 : String) (v : α)
    (hne : k2 ≠ k) : mapGet (mapSet m k v) k2 = mapGet m k2 := by
  induction m with
  | nil => simp [mapSet, mapGet, Ne.symm hne]
  | cons hd tl ih =>
    obtain ⟨k', v'⟩ := hd
    by_cases h : k' = k
    · subst h
      simp [mapSet, mapGet, Ne.symm hne]
    · by_cases h2 : k' = k2
      · subst h2
        simp [mapSet, mapGet, h]
      · simp [mapSet, mapGet, h, h2, ih]

theorem mem_mapKeys_mapSet {α : Type} (m : List (String × α)) (k k2 : String) (v : α) :
    k2 ∈ mapKeys (mapSet m k v) ↔ k2 = k ∨ k2 ∈ mapKeys m := by
  induction m with
  | nil => simp [mapSet, mapKeys]
  | cons hd tl ih =>
    obtain ⟨k', v'⟩ := hd
    by_cases h : k' = k
    · subst h
      simp [mapSet, mapKeys]
    · simp only [mapKeys] at ih
      simp [mapSet, mapKeys, h, ih]
      tauto

theorem nodup_mapKeys_mapSet {α : Type} (m : List (String × α)) (k : String) (v : α)
    (hm : (mapKeys m).Nodup) : (mapKeys (mapSet m k v)).Nodup := by
  induction m with
  | nil => simp [mapSet, mapKeys]
  | cons hd tl ih =>
    obtain ⟨k', v'⟩ := hd
    have htl : (mapKeys tl).Nodup := by
      simp only [mapKeys, List.map_cons, List.nodup_cons] at hm
      exact hm.2
    have hk' : k' ∉ mapKeys tl := by
      simp only [mapKeys, List.map_cons, List.nodup_cons] at hm
      exact hm.1
    by_cases h : k' = k
    · subst h
      simpa [mapSet, mapKeys] using hm
    · have h3 : k' ∉ mapKeys (mapSet tl k v) := by
        rw [mem_mapKeys_mapSet]
        intro hc
        rcases hc with hc | hc
        · exact h hc
        · exact hk' hc
      have h4 := ih htl
      simp only [mapSet, h, if_false]
      simp only [mapKeys, List.map_cons, List.nodup_cons]
      exact ⟨h3, h4⟩

theorem length_mapSet_of_not_mem {α : Type} (m : List (String × α)) (k : String) (v : α)
    (hk : k ∉ mapKeys m) : (mapSet m k v).length = m.length + 1 := by
  induction m with
  | nil => simp [mapSet]
  | cons hd tl ih =>
    obtain ⟨k', v'⟩ := hd
    have h : k' ≠ k := by
      intro hc
      apply hk
      simp [mapKeys, hc]
    have h2 : k ∉ mapKeys tl := by
      intro hc
      apply hk
      simp only [mapKeys, List.map_cons, List.mem_cons]
      exact Or.inr hc
    simp [mapSet, h, ih h2]

theorem mapGet_eq_none_of_not_mem {α : Type} (m : List (String × α)) (k : String)
    (hk : k ∉ mapKeys m) : mapGet m k = none := by
  induction m with
  | nil => simp [mapGet]
  | cons hd tl ih =>
    obtain ⟨k', v'⟩ := hd
    have h : k' ≠ k := by
      intro hc
      apply hk
      simp [mapKeys, hc]
    have h2 : k ∉ mapKeys tl := by
      intro hc
      apply hk
      simp only [mapKeys, List.map_cons, List.mem_cons]
      exact Or.inr hc
    simp [mapGet, h, ih h2]

theorem nodup_map_split {α β : Type} (f : α → β) (pre post : List α) (a : α)
    (h : ((pre ++ a :: post).map f).Nodup) : ∀ g ∈ post, f g ≠ f a := by
  intro g hg hc
  rw [List.map_append, List.map_cons] at h
  have h2 := (List.nodup_append.mp h).2.1
  rw [List.nodup_cons] at h2
  apply h2.1
  rw [← hc]
  exact List.mem_map_of_mem f hg

theorem forall₂_getElem_opt {α β : Type} {R : α → β → Prop} {xs : List α} {ys : List β}
    (h : List.Forall₂ R xs ys) (i : Nat) (x : α) (hx : xs[i]? = some x) :
    ∃ y, ys[i]? = some y ∧ R x y := by
  induction h generalizing i with
  | nil => simp at hx
  | cons hr _ ih =>
    cases i with
    | zero =>
      simp only [List.getElem?_cons_zero, Option.some.injEq] at hx
      subst hx
      exact ⟨_, by simp, hr⟩
    | succ j =>
      simp only [List.getElem?_cons_succ] at hx
      obtain ⟨y, hy, hr2⟩ := ih j hx
      exact ⟨y, by simpa using hy, hr2⟩

/-! ## Storing a list of computed entries -/

theorem storeAll_append (xs ys : List (String × Except String FlatValue)) (acc : FlatMap) :
    storeAll (xs ++ ys) acc =
      match storeAll xs acc with
      | .ok mid => storeAll ys mid
      | .error e => .error e := by
  induction xs generalizing acc with
  | nil => simp [storeAll]
  | cons hd tl ih =>
    obtain ⟨k, r⟩ := hd
    cases r with
    | ok x => simp [storeAll, ih]
    | error e => simp [storeAll]

theorem storeAll_get_of_not_key (items : List (String × Except String FlatValue))
    (acc out : FlatMap) (k : String) (h : storeAll items acc = .ok out)
    (hk : ∀ it ∈ items, it.1 ≠ k) : mapGet out k = mapGet acc k := by
  induction items generalizing acc with
  | nil =>
    simp only [storeAll, Except.ok.injEq] at h
    rw [h]
  | cons hd tl ih =>
    obtain ⟨k', r⟩ := hd
    cases r with
    | error e => simp [storeAll] at h
    | ok x =>
      simp only [storeAll] at h
      have h1 : k' ≠ k := hk (k', .ok x) (List.mem_cons_self _ _)
      rw [ih (mapSet acc k' x) h (fun it hit => hk it (List.mem_cons_of_mem _ hit))]
      exact mapGet_mapSet_ne acc k' k x (Ne.symm h1)

theorem storeAll_get_last (pre post : List (String × Except String FlatValue))
    (k : String) (r : Except String FlatValue) (acc out : FlatMap)
    (h : storeAll (pre ++ (k, r) :: post) acc = .ok out)
    (hpost : ∀ it ∈ post, it.1 ≠ k) :
    ∃ x, r = .ok x ∧ mapGet out k = some x := by
  rw [storeAll_append] at h
  cases hpre : storeAll pre acc with
  | error e => simp [hpre] at h
  | ok mid =>
    simp only [hpre] at h
    cases r with
    | error e => simp [storeAll] at h
    | ok x =>
      simp only [storeAll] at h
      refine ⟨x, rfl, ?_⟩
      rw [storeAll_get_of_not_key post _ out k h hpost]
      exact mapGet_mapSet_self mid k x

theorem storeAll_mem_keys (items : List (String × Except String FlatValue))
    (acc out : FlatMap) (h : storeAll items acc = .ok out) (k : String) :
    k ∈ mapKeys out ↔ k ∈ mapKeys acc ∨ ∃ it ∈ items, it.1 = k := by
  induction items generalizing acc with
  | nil =>
    simp only [storeAll, Except.ok.injEq] at h
    simp [h]
  | cons hd tl ih =>
    obtain ⟨k', r⟩ := hd
    cases r with
    | error e => simp [storeAll] at h
    | ok x =>
      simp only [storeAll] at h
      rw [ih (mapSet acc k' x) h, mem_mapKeys_mapSet]
      simp only [List.mem_cons, exists_eq_or_imp]
      constructor
      · rintro ((h1 | h1) | h1)
        · exact Or.inr (Or.inl h1.symm)
        · exact Or.inl h1
        · exact Or.inr (Or.inr h1)
      · rintro (h1 | h1 | h1)
        · exact Or.inl (Or.inr h1)
        · exact Or.inl (Or.inl h1.symm)
        · exact Or.inr h1

theorem storeAll_nodup (items : List (String × Except String FlatValue))
    (acc out : FlatMap) (h : storeAll items acc = .ok out) (hacc : (mapKeys acc).Nodup) :
    (mapKeys out).Nodup := by
  induction items generalizing acc with
  | nil =>
    simp only [storeAll, Except.ok.injEq] at h
    rw [← h]
    exact hacc
  | cons hd tl ih =>
    obtain ⟨k', r⟩ := hd
    cases r with
    | error e => simp [storeAll] at h
    | ok x =>
      simp only [storeAll] at h
      exact ih (mapSet acc k' x) h (nodup_mapKeys_mapSet acc k' x hacc)

theorem storeAll_length (items : List (String × Except String FlatValue))
    (acc out : FlatMap) (h : storeAll items acc = .ok out)
    (hkeys : (items.map Prod.fst).Nodup) (hnew : ∀ it ∈ items, it.1 ∉ mapKeys acc) :
    out.length = acc.length + items.length := by
  induction items generalizing acc with
  | nil =>
    simp only [storeAll, Except.ok.injEq] at h
    simp [h]
  | cons hd tl ih =>
    obtain ⟨k', r⟩ := hd
    cases r with
    | error e => simp [storeAll] at h
    | ok x =>
      simp only [storeAll] at h
      simp only [List.map_cons, List.nodup_cons] at hkeys
      have hk' : k' ∉ mapKeys acc := hnew (k', .ok x) (List.mem_cons_self _ _)
      have hnew2 : ∀ it ∈ tl, it.1 ∉ mapKeys (mapSet acc k' x) := by
        intro it hit hc
        rw [mem_mapKeys_mapSet] at hc
        rcases hc with hc | hc
        · apply hkeys.1
          rw [← hc]
          exact List.mem_map_of_mem Prod.fst hit
        · exact hnew it (List.mem_cons_of_mem _ hit) hc
      rw [ih (mapSet acc k' x) h hkeys.2 hnew2, length_mapSet_of_not_mem acc k' x hk']
      simp only [List.length_cons]
      omega

theorem storeAll_ok_of_all_ok (items : List (String × Except String FlatValue))
    (acc : FlatMap) (hall : ∀ it ∈ items, ∃ x, it.2 = .ok x) :
    ∃ out, storeAll items acc = .ok out := by
  induction items generalizing acc with
  | nil => exact ⟨acc, rfl⟩
  | cons hd tl ih =>
    obtain ⟨k', r⟩ := hd
    obtain ⟨x, hx⟩ := hall (k', r) (List.mem_cons_self _ _)
    simp only at hx
    subst hx
    simp only [storeAll]
    exact ih _ (fun it hit => hall it (List.mem_cons_of_mem _ hit))

theorem storeAll_error_of_mem_error (items : List (String × Except String FlatValue))
    (acc : FlatMap) (it : String × Except String FlatValue) (e : String)
    (hit : it ∈ items) (he : it.2 = .error e) :
    ∃ e2, storeAll items acc = .error e2 := by
  induction items generalizing acc with
  | nil => simp at hit
  | cons hd tl ih =>
    obtain ⟨k', r⟩ := hd
    cases r with
    | error e3 => exact ⟨e3, rfl⟩
    | ok x =>
      simp only [storeAll]
      rcases List.mem_cons.mp hit with h1 | h1
      · rw [h1] at he
        simp at he
      · exact ih _ h1

theorem storeAll_error_mem (items : List (String × Except String FlatValue))
    (acc : FlatMap) (e : String) (h : storeAll items acc = .error e) :
    ∃ it ∈ items, it.2 = .error e := by
  induction items generalizing acc with
  | nil => simp [storeAll] at h
  | cons hd tl ih =>
    obtain ⟨k', r⟩ := hd
    cases r with
    | error e3 =>
      simp only [storeAll, Except.error.injEq] at h
      exact ⟨(k', .error e3), List.mem_cons_self _ _, by rw [h]⟩
    | ok x =>
      simp only [storeAll] at h
      obtain ⟨it, hit, he⟩ := ih _ h
      exact ⟨it, List.mem_cons_of_mem _ hit, he⟩

/-- Whether storing succeeds does not depend on the map stored into. -/
theorem storeAll_isOk_acc (items : List (String × Except String FlatValue))
    (acc1 acc2 : FlatMap) : (storeAll items acc1).isOk = (storeAll items acc2).isOk := by
  induction items generalizing acc1 acc2 with
  | nil => rfl
  | cons hd tl ih =>
    obtain ⟨k', r⟩ := hd
    cases r with
    | error e3 => rfl
    | ok x =>
      simp only [storeAll]
      exact ih _ _

/-! ## The loops of `StructToMapByTag` in terms of `storeAll` -/

theorem fieldLoop_nil (tag : String) (result : FlatMap) :
    fieldLoop [] tag result = .ok result := rfl

theorem fieldLoop_mk (n p : String) (t : List (String × String)) (v : Value)
    (rest : List StructField) (tag : String) (result : FlatMap) :
    fieldLoop (.mk n p t v :: rest) tag result =
      if tag ≠ "" ∧ tagGet t tag = "" then fieldLoop rest tag result
      else
        match storedValue (decide (p ≠ "")) v tag with
        | .ok x => fieldLoop rest tag (mapSet result (if tag ≠ "" then tagGet t tag else n) x)
        | .error e => .error e := by
  cases v with
  | slice es => cases es <;> rfl
  | array es => cases es <;> rfl
  | map es => cases es <;> rfl
  | _ => rfl

theorem fieldLoop_cons (fi : StructField) (rest : List StructField) (tag : String)
    (result : FlatMap) :
    fieldLoop (fi :: rest) tag result =
      if selected fi tag then
        match fieldValue fi tag with
        | .ok x => fieldLoop rest tag (mapSet result (exposedName fi tag) x)
        | .error e => .error e
      else fieldLoop rest tag result := by
  cases fi with
  | mk n p t v =>
    rw [fieldLoop_mk]
    simp only [selected, exposedName, fieldValue, StructField.readOnly, StructField.pkgPath,
      StructField.tags, StructField.name, StructField.value]
    by_cases h1 : tag = ""
    · subst h1
      simp
    · by_cases h2 : tagGet t tag = ""
      · simp [h1, h2]
      · simp [h1, h2]

theorem fieldLoop_eq_storeAll (fs : List StructField) (tag : String) (result : FlatMap) :
    fieldLoop fs tag result = storeAll (fieldItems fs tag) result := by
  induction fs generalizing result with
  | nil => rfl
  | cons fi rest ih =>
    rw [fieldLoop_cons]
    by_cases hs : selected fi tag
    · simp only [hs, if_true, fieldItems, List.filter_cons, decide_True, List.map_cons]
      cases hv : fieldValue fi tag with
      | ok x =>
        simp only [storeAll]
        rw [ih]
        rfl
      | error e => simp only [storeAll]
    · simp only [hs, if_false, fieldItems, List.filter_cons, decide_False]
      rw [ih]
      rfl

theorem entryLoop_cons (readOnly : Bool) (key : MapKey) (value : Value)
    (rest : List (MapKey × Value)) (tag : String) (tmp : FlatMap) :
    entryLoop readOnly ((key, value) :: rest) tag tmp =
      match entryValue readOnly value tag with
      | .ok x => entryLoop readOnly rest tag (mapSet tmp key.String x)
      | .error e => .error e := by
  rw [entryLoop.eq_def]
  simp only [entryValue]
  cases readOnly
  · cases hb : (Find value.kind recursedKinds Identity).2
    · simp
    · simp only [Bool.true_eq_false, Bool.false_eq_true, if_false]
      cases hv : StructToMapByTag value tag <;> rfl
  · cases hb : (Find value.kind recursedKinds Identity).2 <;> simp

theorem entryLoop_eq_storeAll (readOnly : Bool) (entries : List (MapKey × Value))
    (tag : String) (tmp : FlatMap) :
    entryLoop readOnly entries tag tmp = storeAll (entryItems readOnly entries tag) tmp := by
  induction entries generalizing tmp with
  | nil => rw [entryLoop.eq_def]; rfl
  | cons en rest ih =>
    obtain ⟨key, value⟩ := en
    rw [entryLoop_cons]
    simp only [entryItems, List.map_cons]
    cases hv : entryValue readOnly value tag with
    | ok x =>
      simp only [storeAll]
      rw [ih]
      rfl
    | error e => simp only [storeAll]

theorem StructToMapByTag_struct (fs : List StructField) (tag : String) :
    StructToMapByTag (.struct fs) tag = storeAll (fieldItems fs tag) [] := by
  rw [StructToMapByTag.eq_def]
  exact fieldLoop_eq_storeAll fs tag []

theorem StructToMapByTag_ptr_struct (gs : List StructField) (tag : String) :
    StructToMapByTag (.ptr (some (.struct gs))) tag = StructToMapByTag (.struct gs) tag := by
  rw [StructToMapByTag.eq_def, StructToMapByTag.eq_def]

theorem fieldItems_append (pre post : List StructField) (tag : String) :
    fieldItems (pre ++ post) tag = fieldItems pre tag ++ fieldItems post tag := by
  simp [fieldItems]

theorem fieldItems_cons_selected (fi : StructField) (post : List StructField) (tag : String)
    (hs : selected fi tag) :
    fieldItems (fi :: post) tag =
      (exposedName fi tag, fieldValue fi tag) :: fieldItems post tag := by
  simp [fieldItems, hs]

theorem mem_fieldItems (fs : List StructField) (tag : String)
    (it : String × Except String FlatValue) :
    it ∈ fieldItems fs tag ↔
      ∃ fi ∈ fs, selected fi tag ∧ it = (exposedName fi tag, fieldValue fi tag) := by
  simp only [fieldItems, List.mem_map, List.mem_filter, decide_eq_true_eq]
  constructor
  · rintro ⟨fi, ⟨h1, h2⟩, h3⟩
    exact ⟨fi, h1, h2, h3.symm⟩
  · rintro ⟨fi, h1, h2, h3⟩
    exact ⟨fi, ⟨h1, h2⟩, h3.symm⟩

theorem mem_entryItems (readOnly : Bool) (entries : List (MapKey × Value)) (tag : String)
    (it : String × Except String FlatValue) :
    it ∈ entryItems readOnly entries tag ↔
      ∃ en ∈ entries, it = (en.1.String, entryValue readOnly en.2 tag) := by
  simp only [entryItems, List.mem_map]
  constructor
  · rintro ⟨en, h1, h2⟩
    exact ⟨en, h1, h2.symm⟩
  · rintro ⟨en, h1, h2⟩
    exact ⟨en, h1, h2.symm⟩

theorem selected_of_tag_ne (fi : StructField) (tag : String) (htag : tag ≠ "") :
    selected fi tag ↔ tagGet fi.tags tag ≠ "" := by
  simp [selected, htag]

theorem exposedName_of_tag_ne (fi : StructField) (tag : String) (htag : tag ≠ "") :
    exposedName fi tag = tagGet fi.tags tag := by
  simp [exposedName, htag]

theorem fieldItems_of_tag_ne (fs : List StructField) (tag : String) (htag : tag ≠ "") :
    fieldItems fs tag =
      (fs.filter (fun fi => decide (tagGet fi.tags tag ≠ ""))).map
        (fun fi => (tagGet fi.tags tag, fieldValue fi tag)) := by
  simp only [fieldItems]
  have h1 : (fun fi => decide (selected fi tag)) =
      (fun fi : StructField => decide (tagGet fi.tags tag ≠ "")) := by
    funext fi
    simp [selected_of_tag_ne fi tag htag]
  have h2 : (fun fi : StructField => (exposedName fi tag, fieldValue fi tag)) =
      (fun fi => (tagGet fi.tags tag, fieldValue fi tag)) := by
    funext fi
    rw [exposedName_of_tag_ne fi tag htag]
  rw [h1, h2]

/-! ## The value stored for a field, by the shape of what it holds -/

/-- The case analysis of `storedValue` on the shape of the value is the case
analysis of main.go 227, 233 and 246 on the kind and the length. -/
theorem storedValue_eq_byKind (readOnly : Bool) (v : Value) (tag : String) :
    storedValue readOnly v tag = storedValueByKind readOnly v tag := by
  cases v with
  | scalar s => cases s <;> simp [storedValue, storedValueByKind, Value.kind]
  | ptr t => simp [storedValue, storedValueByKind, Value.kind]
  | struct fs => simp [storedValue, storedValueByKind, Value.kind]
  | iface t => simp [storedValue, storedValueByKind, Value.kind]
  | slice es =>
    cases es <;>
      simp [storedValue, storedValueByKind, Value.kind, Value.len, Value.elems]
  | array es =>
    cases es <;>
      simp [storedValue, storedValueByKind, Value.kind, Value.len, Value.elems]
  | map en =>
    cases en <;>
      simp [storedValue, storedValueByKind, Value.kind, Value.len, Value.entries]

/-- Whatever an unexported field holds, reading it panics in `Interface()`. -/
theorem storedValue_readOnly (v : Value) (tag : String) :
    storedValue true v tag = .error interfacePanicMsg := by
  cases v with
  | scalar s => cases s <;> simp [storedValue, Value.kind]
  | ptr t => simp only [storedValue]; split <;> rfl
  | struct fs => simp [storedValue, Value.kind]
  | iface t => simp [storedValue, Value.kind]
  | slice es =>
    cases es with
    | nil => simp [storedValue, Value.kind]
    | cons el els =>
      simp only [storedValue]
      rw [elemLoop.eq_def]
      rfl
  | array es =>
    cases es with
    | nil => simp [storedValue, Value.kind]
    | cons el els =>
      simp only [storedValue]
      rw [elemLoop.eq_def]
      rfl
  | map en =>
    cases en with
    | nil => simp [storedValue, Value.kind]
    | cons e1 ens =>
      obtain ⟨key, value⟩ := e1
      simp only [storedValue]
      rw [entryLoop.eq_def]
      simp

theorem fieldValue_of_unexported (fi : StructField) (tag : String)
    (h : fi.pkgPath ≠ "") : fieldValue fi tag = .error interfacePanicMsg := by
  have hro : fi.readOnly = true := by simp [StructField.readOnly, h]
  rw [fieldValue, hro]
  exact storedValue_readOnly fi.value tag

theorem fieldValue_of_exported (fi : StructField) (tag : String)
    (h : fi.pkgPath = "") : fieldValue fi tag = storedValue false fi.value tag := by
  have hro : fi.readOnly = false := by simp [StructField.readOnly, h]
  rw [fieldValue, hro]

/-- A field whose value is computed is exported. -/
theorem exported_of_fieldValue_ok (fi : StructField) (tag : String) (x : FlatValue)
    (h : fieldValue fi tag = .ok x) : fi.pkgPath = "" := by
  by_contra hne
  rw [fieldValue_of_unexported fi tag hne] at h
  cases h

/-- A scalar, in a field of its own type or in a field of interface type. -/
theorem storedValue_scalar (v : Value) (s : Scalar) (tag : String)
    (hv : v.Interface = .scalar s) :
    storedValue false v tag = .ok (.raw (.scalar s)) := by
  cases v with
  | scalar s2 =>
    simp only [Value.Interface] at hv
    cases s2 <;> simp [storedValue, Value.kind, Value.Interface] at hv ⊢ <;> exact hv
  | iface t =>
    cases t with
    | none => simp [Value.Interface] at hv
    | some w =>
      simp only [Value.Interface] at hv
      subst hv
      simp [storedValue, Value.kind, Value.Interface]
  | ptr t => simp [Value.Interface] at hv
  | struct fs => simp [Value.Interface] at hv
  | slice es => simp [Value.Interface] at hv
  | array es => simp [Value.Interface] at hv
  | map en => simp [Value.Interface] at hv

theorem storedValue_record (v : Value) (gs : List StructField) (tag : String)
    (hv : v = .struct gs ∨ v = .ptr (some (.struct gs))) :
    storedValue false v tag =
      match StructToMapByTag v tag with
      | .ok m => .ok (.node m)
      | .error e => .error e := by
  rcases hv with h | h <;> subst h <;> simp [storedValue, Value.kind, Value.elemKind]

theorem storedValue_sequence (v : Value) (es : List Value) (tag : String)
    (hv : v = .slice es ∨ v = .array es) (hne : es ≠ []) :
    storedValue false v tag =
      match elemLoop false es tag [] with
      | .ok tmp => .ok (.seq tmp)
      | .error e => .error e := by
  cases es with
  | nil => exact absurd rfl hne
  | cons el els => rcases hv with h | h <;> subst h <;> simp only [storedValue]

/-- An empty container, in a field of its own type or in a field of interface
type, is stored as it is. -/
theorem storedValue_empty (v : Value) (tag : String)
    (hv : v.Interface = .slice [] ∨ v.Interface = .array [] ∨ v.Interface = .map []) :
    storedValue false v tag = .ok (.raw v.Interface) := by
  cases v with
  | scalar s => simp [Value.Interface] at hv
  | ptr t => simp [Value.Interface] at hv
  | struct fs => simp [Value.Interface] at hv
  | iface t => simp [storedValue, Value.kind]
  | slice es =>
    simp only [Value.Interface, Value.slice.injEq, false_or, or_false, reduceCtorEq] at hv
    subst hv
    simp [storedValue, Value.kind, Value.Interface]
  | array es =>
    simp only [Value.Interface, Value.array.injEq, false_or, or_false, reduceCtorEq] at hv
    subst hv
    simp [storedValue, Value.kind, Value.Interface]
  | map en =>
    simp only [Value.Interface, Value.map.injEq, false_or, or_false, reduceCtorEq] at hv
    subst hv
    simp [storedValue, Value.kind, Value.Interface]

/-- What sits in a field of interface type is stored as it is, whatever it is. -/
theorem storedValue_iface (held : Option Value) (tag : String) :
    storedValue false (.iface held) tag = .ok (.raw (Value.iface held).Interface) := by
  simp [storedValue, Value.kind]

theorem storedValue_mapping (readOnly : Bool) (v : Value) (entries : List (MapKey × Value))
    (tag : String) (hv : v = .map entries) (hne : entries ≠ []) :
    storedValue readOnly v tag =
      match storeAll (entryItems readOnly entries tag) [] with
      | .ok tmp => .ok (.node tmp)
      | .error e => .error e := by
  cases entries with
  | nil => exact absurd rfl hne
  | cons en ens =>
    subst hv
    simp only [storedValue]
    rw [entryLoop_eq_storeAll]

theorem entryValue_struct (gs : List StructField) (tag : String) :
    entryValue false (.struct gs) tag =
      match StructToMapByTag (.struct gs) tag with
      | .ok m => .ok (.node m)
      | .error e => .error e := by
  simp [entryValue, Find, FindIf, FindIf.go, recursedKinds, Identity, Value.kind]

/-- A scalar entry, in a map of scalars or in a map of interface values. -/
theorem entryValue_scalar (v : Value) (s : Scalar) (tag : String)
    (hv : v.Interface = .scalar s) :
    entryValue false v tag = .ok (.raw (.scalar s)) := by
  cases v with
  | scalar s2 =>
    simp only [Value.Interface] at hv
    rw [hv]
    cases s <;>
      simp [entryValue, Find, FindIf, FindIf.go, recursedKinds, Identity, Value.kind,
        Value.Interface]
  | iface t =>
    cases t with
    | none => simp [Value.Interface] at hv
    | some w =>
      simp only [Value.Interface] at hv
      subst hv
      simp [entryValue, Find, FindIf, FindIf.go, recursedKinds, Identity, Value.kind,
        Value.Interface]
  | ptr t => simp [Value.Interface] at hv
  | struct fs => simp [Value.Interface] at hv
  | slice es => simp [Value.Interface] at hv
  | array es => simp [Value.Interface] at hv
  | map en => simp [Value.Interface] at hv

/-- An entry of a map of interface values is stored as it is, whatever it is. -/
theorem entryValue_iface (held : Option Value) (tag : String) :
    entryValue false (.iface held) tag = .ok (.raw (Value.iface held).Interface) := by
  simp [entryValue, Find, FindIf, FindIf.go, recursedKinds, Identity, Value.kind]

theorem elemLoop_ok (es : List Value) (tag : String) (tmp out : List FlatValue)
    (h : elemLoop false es tag tmp = .ok out) :
    ∃ ys, out = tmp ++ ys ∧
      List.Forall₂ (fun e y => ∃ m, StructToMapByTag e tag = .ok m ∧ y = .node m) es ys := by
  induction es generalizing tmp with
  | nil =>
    rw [elemLoop.eq_def] at h
    simp only [Except.ok.injEq] at h
    exact ⟨[], by simp [h], List.Forall₂.nil⟩
  | cons el rest ih =>
    rw [elemLoop.eq_def] at h
    simp only [Bool.false_eq_true, if_false] at h
    cases hm : StructToMapByTag el tag with
    | error e => simp [hm] at h
    | ok m =>
      simp only [hm] at h
      obtain ⟨ys, hys, hall⟩ := ih _ h
      exact ⟨.node m :: ys, by simp [hys], List.Forall₂.cons ⟨m, hm, rfl⟩ hall⟩

/-- The entry of a selected field that no later selected field overwrites: the
call computed the field's value and the output holds it under the exposed name. -/
theorem fieldLoop_get_field (pre post : List StructField) (fi : StructField) (tag : String)
    (acc out : FlatMap)
    (h : storeAll (fieldItems (pre ++ fi :: post) tag) acc = .ok out)
    (hs : selected fi tag)
    (hlast : ∀ g ∈ post, selected g tag → exposedName g tag ≠ exposedName fi tag) :
    ∃ x, fieldValue fi tag = .ok x ∧ mapGet out (exposedName fi tag) = some x := by
  rw [fieldItems_append, fieldItems_cons_selected fi post tag hs] at h
  apply storeAll_get_last (fieldItems pre tag) (fieldItems post tag) _ _ acc out h
  intro it hit
  rw [mem_fieldItems] at hit
  obtain ⟨g, hg, hgs, rfl⟩ := hit
  exact hlast g hg hgs

theorem stores_of_ok (pre post : List StructField) (fi : StructField) (tag : String)
    (out : FlatMap) (hs : selected fi tag)
    (h : StructToMapByTag (.struct (pre ++ fi :: post)) tag = .ok out) :
    ∃ x, fieldValue fi tag = .ok x ∧ storesForField pre post fi tag x out ∧
      (notOverwritten post fi tag → mapGet out (exposedName fi tag) = some x) := by
  rw [StructToMapByTag_struct] at h
  have h0 := h
  rw [fieldItems_append, fieldItems_cons_selected fi post tag hs, storeAll_append] at h
  cases hpre : storeAll (fieldItems pre tag) [] with
  | error e => simp [hpre] at h
  | ok mid =>
    simp only [hpre] at h
    cases hv : fieldValue fi tag with
    | error e => simp [hv, storeAll] at h
    | ok x =>
      simp only [hv, storeAll] at h
      refine ⟨x, rfl, ⟨mid, ?_, ?_⟩, ?_⟩
      · rw [fieldLoop_eq_storeAll, hpre]
      · rw [fieldLoop_eq_storeAll, h]
      · intro hlast
        obtain ⟨y, hy, hget⟩ := fieldLoop_get_field pre post fi tag [] out h0 hs hlast
        rw [hv] at hy
        cases hy
        exact hget

/-- A call that returns has read every selected field, so each of them is
exported. -/
theorem exported_of_ok (pre post : List StructField) (fi : StructField) (tag : String)
    (out : FlatMap) (hs : selected fi tag)
    (h : StructToMapByTag (.struct (pre ++ fi :: post)) tag = .ok out) :
    fi.pkgPath = "" := by
  obtain ⟨x, hx, _⟩ := stores_of_ok pre post fi tag out hs h
  exact exported_of_fieldValue_ok fi tag x hx

/-- The call on a record reaches the field `fi` and fails there when the
computation of its value fails. -/
theorem error_at_field (pre post : List StructField) (fi : StructField) (tag : String)
    (mid : FlatMap) (e : String) (hs : selected fi tag)
    (hpre : fieldLoop pre tag [] = .ok mid) (hv : fieldValue fi tag = .error e) :
    StructToMapByTag (.struct (pre ++ fi :: post)) tag = .error e := by
  rw [StructToMapByTag_struct, fieldItems_append, fieldItems_cons_selected fi post tag hs,
    storeAll_append]
  rw [fieldLoop_eq_storeAll] at hpre
  simp only [hpre, hv, storeAll]

/-- The call on a record fails when the computation of the value of one of its
selected fields fails. -/
theorem error_of_field_error (pre post : List StructField) (fi : StructField) (tag : String)
    (e : String) (hs : selected fi tag) (hv : fieldValue fi tag = .error e) :
    ∃ e2, StructToMapByTag (.struct (pre ++ fi :: post)) tag = .error e2 := by
  rw [StructToMapByTag_struct]
  apply storeAll_error_of_mem_error _ _ (exposedName fi tag, fieldValue fi tag) e
  · rw [mem_fieldItems]
    exact ⟨fi, by simp, hs, rfl⟩
  · exact hv

/-! ## Every failure is one of two panics -/

mutual
theorem StructToMapByTag_error (value : Value) (tag e : String)
    (h : StructToMapByTag value tag = .error e) :
    e = panicMsg ∨ e = interfacePanicMsg := by
  cases value with
  | struct fs =>
    rw [StructToMapByTag.eq_def] at h
    exact fieldLoop_error fs tag [] e h
  | ptr t =>
    cases t with
    | none =>
      rw [StructToMapByTag.eq_def] at h
      simp only [Except.error.injEq] at h
      exact Or.inl h.symm
    | some v =>
      cases v with
      | struct fs =>
        rw [StructToMapByTag.eq_def] at h
        exact fieldLoop_error fs tag [] e h
      | _ =>
        rw [StructToMapByTag.eq_def] at h
        simp only [Except.error.injEq] at h
        exact Or.inl h.symm
  | iface t =>
    cases t with
    | none =>
      rw [StructToMapByTag.eq_def] at h
      simp only [Except.error.injEq] at h
      exact Or.inl h.symm
    | some v =>
      cases v with
      | struct fs =>
        rw [StructToMapByTag.eq_def] at h
        exact fieldLoop_error fs tag [] e h
      | ptr t2 =>
        cases t2 with
        | none =>
          rw [StructToMapByTag.eq_def] at h
          simp only [Except.error.injEq] at h
          exact Or.inl h.symm
        | some w =>
          cases w with
          | struct fs =>
            rw [StructToMapByTag.eq_def] at h
            exact fieldLoop_error fs tag [] e h
          | _ =>
            rw [StructToMapByTag.eq_def] at h
            simp only [Except.error.injEq] at h
            exact Or.inl h.symm
      | _ =>
        rw [StructToMapByTag.eq_def] at h
        simp only [Except.error.injEq] at h
        exact Or.inl h.symm
  | _ =>
    rw [StructToMapByTag.eq_def] at h
    simp only [Except.error.injEq] at h
    exact Or.inl h.symm
theorem fieldLoop_error (fs : List StructField) (tag : String) (result : FlatMap) (e : String)
    (h : fieldLoop fs tag result = .error e) :
    e = panicMsg ∨ e = interfacePanicMsg := by
  cases fs with
  | nil => rw [fieldLoop_nil] at h; simp at h
  | cons fi rest =>
    rw [fieldLoop_cons] at h
    by_cases hs : selected fi tag
    · simp only [hs, if_true] at h
      cases hv : fieldValue fi tag with
      | ok x =>
        simp only [hv] at h
        exact fieldLoop_error rest tag _ e h
      | error e2 =>
        simp only [hv, Except.error.injEq] at h
        subst h
        cases fi with
        | mk n p t v =>
          by_cases hp : p = ""
          · rw [fieldValue_of_exported _ _ (by simpa [StructField.pkgPath] using hp)] at hv
            simp only [StructField.value] at hv
            exact storedValue_error v tag e2 hv
          · rw [fieldValue_of_unexported _ _ (by simpa [StructField.pkgPath] using hp)] at hv
            simp only [Except.error.injEq] at hv
            exact Or.inr hv.symm
    · simp only [hs, if_false] at h
      exact fieldLoop_error rest tag _ e h
theorem storedValue_error (v : Value) (tag e : String)
    (h : storedValue false v tag = .error e) :
    e = panicMsg ∨ e = interfacePanicMsg := by
  cases v with
  | scalar s => rw [storedValue_scalar (.scalar s) s tag rfl] at h; simp at h
  | iface t => rw [storedValue_iface] at h; simp at h
  | struct fs =>
    have h2 : storedValue false (.struct fs) tag =
        match fieldLoop fs tag [] with
        | .ok m => .ok (.node m)
        | .error e => .error e := by
      simp [storedValue, Value.kind, StructToMapByTag.eq_def]
    rw [h2] at h
    cases hf : fieldLoop fs tag [] with
    | ok m => simp [hf] at h
    | error e2 =>
      simp only [hf, Except.error.injEq] at h
      subst h
      exact fieldLoop_error fs tag [] e2 hf
  | ptr t =>
    cases t with
    | none => simp [storedValue, Value.kind, Value.elemKind] at h
    | some w =>
      cases w with
      | struct fs =>
        have h2 : storedValue false (.ptr (some (.struct fs))) tag =
            match fieldLoop fs tag [] with
            | .ok m => .ok (.node m)
            | .error e => .error e := by
          simp [storedValue, Value.kind, Value.elemKind, StructToMapByTag.eq_def]
        rw [h2] at h
        cases hf : fieldLoop fs tag [] with
        | ok m => simp [hf] at h
        | error e2 =>
          simp only [hf, Except.error.injEq] at h
          subst h
          exact fieldLoop_error fs tag [] e2 hf
      | scalar s => cases s <;> simp [storedValue, Value.kind, Value.elemKind] at h
      | _ => simp [storedValue, Value.kind, Value.elemKind] at h
  | slice es =>
    cases es with
    | nil => simp [storedValue, Value.kind] at h
    | cons el els =>
      simp only [storedValue] at h
      cases hf : elemLoop false (el :: els) tag [] with
      | ok m => simp [hf] at h
      | error e2 =>
        simp only [hf, Except.error.injEq] at h
        subst h
        exact elemLoop_error (el :: els) tag [] e2 hf
  | array es =>
    cases es with
    | nil => simp [storedValue, Value.kind] at h
    | cons el els =>
      simp only [storedValue] at h
      cases hf : elemLoop false (el :: els) tag [] with
      | ok m => simp [hf] at h
      | error e2 =>
        simp only [hf, Except.error.injEq] at h
        subst h
        exact elemLoop_error (el :: els) tag [] e2 hf
  | map en =>
    cases en with
    | nil => simp [storedValue, Value.kind] at h
    | cons en ens =>
      simp only [storedValue] at h
      cases hf : entryLoop false (en :: ens) tag [] with
      | ok m => simp [hf] at h
      | error e2 =>
        simp only [hf, Except.error.injEq] at h
        subst h
        exact entryLoop_error (en :: ens) tag [] e2 hf
theorem entryLoop_error (entries : List (MapKey × Value)) (tag : String) (tmp : FlatMap)
    (e : String) (h : entryLoop false entries tag tmp = .error e) :
    e = panicMsg ∨ e = interfacePanicMsg := by
  cases entries with
  | nil => rw [entryLoop.eq_def] at h; simp at h
  | cons en rest =>
    obtain ⟨key, value⟩ := en
    rw [entryLoop_cons] at h
    cases hv : entryValue false value tag with
    | ok x =>
      simp only [hv] at h
      exact entryLoop_error rest tag _ e h
    | error e2 =>
      simp only [hv, Except.error.injEq] at h
      subst h
      simp only [entryValue] at hv
      cases hb : (Find value.kind recursedKinds Identity).2
      · simp [hb] at hv
      · simp only [hb, Bool.true_eq_false, Bool.false_eq_true, if_false] at hv
        cases hf : StructToMapByTag value tag with
        | ok m => simp [hf] at hv
        | error e3 =>
          simp only [hf, Except.error.injEq] at hv
          subst hv
          exact StructToMapByTag_error value tag e3 hf
theorem elemLoop_error (elems : List Value) (tag : String) (tmp : List FlatValue)
    (e : String) (h : elemLoop false elems tag tmp = .error e) :
    e = panicMsg ∨ e = interfacePanicMsg := by
  cases elems with
  | nil => rw [elemLoop.eq_def] at h; simp at h
  | cons el rest =>
    rw [elemLoop.eq_def] at h
    simp only [Bool.false_eq_true, if_false] at h
    cases hf : StructToMapByTag el tag with
    | ok m =>
      simp only [hf] at h
      exact elemLoop_error rest tag _ e h
    | error e3 =>
      simp only [hf, Except.error.injEq] at h
      subst h
      exact StructToMapByTag_error el tag e3 hf
end

/-- The top of `StructToMapByTag` (main.go 204-212): a value that, taken out
of its interface, is neither a struct nor a pointer to one panics there. -/
theorem StructToMapByTag_of_not_resolves (v : Value) (tag : String)
    (h : ¬ resolvesToStruct v.Interface) : StructToMapByTag v tag = .error panicMsg := by
  cases v with
  | struct fs => exact absurd (Or.inl rfl) h
  | ptr t =>
    cases t with
    | none => rw [StructToMapByTag.eq_def]
    | some w =>
      cases w with
      | struct fs => exact absurd (Or.inr ⟨rfl, rfl⟩) h
      | _ => rw [StructToMapByTag.eq_def]
  | iface t =>
    cases t with
    | none => rw [StructToMapByTag.eq_def]
    | some v =>
      cases v with
      | struct fs => exact absurd (Or.inl rfl) h
      | ptr t2 =>
        cases t2 with
        | none => rw [StructToMapByTag.eq_def]
        | some w =>
          cases w with
          | struct fs => exact absurd (Or.inr ⟨rfl, rfl⟩) h
          | _ => rw [StructToMapByTag.eq_def]
      | _ => rw [StructToMapByTag.eq_def]
  | _ => rw [StructToMapByTag.eq_def]

/-- A scalar in an exported field is stored as it is. -/
theorem fieldValue_scalar (fi : StructField) (s : Scalar) (tag : String)
    (hp : fi.pkgPath = "") (hv : fi.value.Interface = .scalar s) :
    fieldValue fi tag = .ok (.raw (.scalar s)) := by
  rw [fieldValue_of_exported fi tag hp]
  exact storedValue_scalar fi.value s tag hv

/-- A record whose selected fields hold scalars panics in `Interface()` as
soon as one of the selected fields is unexported. -/
theorem scalar_fields_panic (fs : List StructField) (tag : String)
    (hsc : ∀ fi ∈ fs, selected fi tag → ∃ s, fi.value.Interface = .scalar s)
    (hun : ∃ fi ∈ fs, selected fi tag ∧ fi.pkgPath ≠ "") :
    storeAll (fieldItems fs tag) [] = .error interfacePanicMsg := by
  obtain ⟨fi, hfi, hsel, hp⟩ := hun
  obtain ⟨e2, he2⟩ := storeAll_error_of_mem_error (fieldItems fs tag) []
    (exposedName fi tag, fieldValue fi tag) interfacePanicMsg
    ((mem_fieldItems fs tag _).mpr ⟨fi, hfi, hsel, rfl⟩)
    (fieldValue_of_unexported fi tag hp)
  obtain ⟨it, hit, hite⟩ := storeAll_error_mem _ _ _ he2
  rw [mem_fieldItems] at hit
  obtain ⟨g, hg, hgsel, rfl⟩ := hit
  simp only at hite
  by_cases hgp : g.pkgPath = ""
  · obtain ⟨s, hs⟩ := hsc g hg hgsel
    rw [fieldValue_scalar g s tag hgp hs] at hite
    cases hite
  · rw [fieldValue_of_unexported g tag hgp] at hite
    simp only [Except.error.injEq] at hite
    rw [he2, ← hite]

/-- Counterexample to claim C2: the one field of `struct{name string}` holds a
scalar and is tagged `json:"n"`, yet with the selector `json` the call panics
in `Interface()` on that unexported field and gives no output at all. -/
theorem StructToMapByTag_tagged_unexported_panics :
    "json" ≠ "" ∧
    (∀ fi ∈ taggedUnexportedFields, ∃ s, fi.value = .scalar s) ∧
    ((taggedUnexportedFields.filter (fun fi => decide (tagGet fi.tags "json" ≠ ""))).map
      (fun fi => tagGet fi.tags "json")).Nodup ∧
    StructToMapByTag (.struct taggedUnexportedFields) "json" = .error interfacePanicMsg :=
  ⟨by decide, by
    intro fi hfi
    simp only [taggedUnexportedFields, List.mem_singleton] at hfi
    subst hfi
    exact ⟨_, rfl⟩, by decide, rfl⟩

/-- Claim C2, amended to what the code does: take a non-empty selector key and
a record whose tagged fields hold scalars and carry pairwise distinct tag
values.  When the tagged fields are all exported, the record is flattened to a
map whose keys are exactly the tag values of the tagged fields, each tagged
field being stored under its tag value with its value unchanged; an untagged
field contributes no entry (the map has as many entries as there are tagged
fields, and looking up anything that is not a tag value finds nothing).  When
a tagged field is unexported, the call panics in `Interface()`. -/
theorem StructToMapByTag_tagged_scalars (fs : List StructField) (tag : String)
    (htag : tag ≠ "")
    (hscalar : ∀ fi ∈ fs, tagGet fi.tags tag ≠ "" → ∃ s, fi.value.Interface = .scalar s)
    (hdistinct : ((fs.filter (fun fi => decide (tagGet fi.tags tag ≠ ""))).map
      (fun fi => tagGet fi.tags tag)).Nodup) :
    ((∀ fi ∈ fs, tagGet fi.tags tag ≠ "" → fi.pkgPath = "") →
      ∃ out, StructToMapByTag (.struct fs) tag = .ok out ∧
        (∀ k, k ∈ mapKeys out ↔
          ∃ fi ∈ fs, tagGet fi.tags tag ≠ "" ∧ tagGet fi.tags tag = k) ∧
        (∀ fi ∈ fs, tagGet fi.tags tag ≠ "" →
          mapGet out (tagGet fi.tags tag) = some (.raw fi.value.Interface)) ∧
        out.length = (fs.filter (fun fi => decide (tagGet fi.tags tag ≠ ""))).length ∧
        (mapKeys out).Nodup ∧
        (∀ k, (¬ ∃ fi ∈ fs, tagGet fi.tags tag ≠ "" ∧ tagGet fi.tags tag = k) →
          mapGet out k = none)) ∧
    ((∃ fi ∈ fs, tagGet fi.tags tag ≠ "" ∧ fi.pkgPath ≠ "") →
      StructToMapByTag (.struct fs) tag = .error interfacePanicMsg) := by
  constructor
  · intro hexp
    have hok : ∃ out, storeAll (fieldItems fs tag) [] = .ok out := by
      apply storeAll_ok_of_all_ok
      intro it hit
      rw [mem_fieldItems] at hit
      obtain ⟨fi, hfi, hsel, rfl⟩ := hit
      have hne := (selected_of_tag_ne fi tag htag).mp hsel
      obtain ⟨s, hs⟩ := hscalar fi hfi hne
      exact ⟨.raw (.scalar s), fieldValue_scalar fi s tag (hexp fi hfi hne) hs⟩
    obtain ⟨out, hout⟩ := hok
    have hkeys : ∀ k, k ∈ mapKeys out ↔
        ∃ fi ∈ fs, tagGet fi.tags tag ≠ "" ∧ tagGet fi.tags tag = k := by
      intro k
      rw [storeAll_mem_keys _ [] out hout k]
      simp only [mapKeys, List.map_nil, List.not_mem_nil, false_or]
      constructor
      · rintro ⟨it, hit, hk⟩
        rw [mem_fieldItems] at hit
        obtain ⟨fi, hfi, hsel, rfl⟩ := hit
        exact ⟨fi, hfi, (selected_of_tag_ne fi tag htag).mp hsel,
          by rw [← hk, exposedName_of_tag_ne fi tag htag]⟩
      · rintro ⟨fi, hfi, hne, hk⟩
        exact ⟨(exposedName fi tag, fieldValue fi tag),
          (mem_fieldItems fs tag _).mpr
            ⟨fi, hfi, (selected_of_tag_ne fi tag htag).mpr hne, rfl⟩,
          by rw [← hk, exposedName_of_tag_ne fi tag htag]⟩
    refine ⟨out, by rw [StructToMapByTag_struct, hout], hkeys, ?_, ?_, ?_, ?_⟩
    · intro fi hfi hne
      obtain ⟨s, hs⟩ := hscalar fi hfi hne
      have hp := hexp fi hfi hne
      obtain ⟨pre, post, hsplit⟩ := List.append_of_mem hfi
      subst hsplit
      have hsel : selected fi tag := (selected_of_tag_ne fi tag htag).mpr hne
      obtain ⟨x, hx, hget⟩ := fieldLoop_get_field pre post fi tag [] out hout hsel
        (by
          intro g hg hgsel
          rw [exposedName_of_tag_ne g tag htag, exposedName_of_tag_ne fi tag htag]
          have hgne := (selected_of_tag_ne g tag htag).mp hgsel
          have hdec : decide (tagGet fi.tags tag ≠ "") = true := decide_eq_true hne
          rw [List.filter_append, List.filter_cons, if_pos hdec] at hdistinct
          exact nodup_map_split (fun fi => tagGet fi.tags tag) _ _ fi hdistinct g
            (List.mem_filter.mpr ⟨hg, decide_eq_true hgne⟩))
      rw [fieldValue_scalar fi s tag hp hs] at hx
      rw [exposedName_of_tag_ne fi tag htag] at hget
      rw [hget, hs]
      cases hx
      rfl
    · have hlen := storeAll_length (fieldItems fs tag) [] out hout
        (by
          rw [fieldItems_of_tag_ne fs tag htag, List.map_map]
          exact hdistinct)
        (by intro it _; simp [mapKeys])
      rw [hlen, fieldItems_of_tag_ne fs tag htag]
      simp
    · exact storeAll_nodup _ [] out hout (by simp [mapKeys])
    · intro k hk
      apply mapGet_eq_none_of_not_mem
      rw [hkeys]
      exact hk
  · rintro ⟨fi, hfi, hne, hp⟩
    rw [StructToMapByTag_struct]
    exact scalar_fields_panic fs tag
      (fun g hg hgsel => hscalar g hg ((selected_of_tag_ne g tag htag).mp hgsel))
      ⟨fi, hfi, (selected_of_tag_ne fi tag htag).mpr hne, hp⟩

/-- Witness for the amended claim C2, at a record with two fields tagged under
`json`. -/
theorem StructToMapByTag_tagged_scalars_witness :
    ("json" ≠ "" ∧
      (∀ fi ∈ taggedFields, tagGet fi.tags "json" ≠ "" →
        ∃ s, fi.value.Interface = .scalar s) ∧
      ((taggedFields.filter (fun fi => decide (tagGet fi.tags "json" ≠ ""))).map
        (fun fi => tagGet fi.tags "json")).Nodup) ∧
    (((∀ fi ∈ taggedFields, tagGet fi.tags "json" ≠ "" → fi.pkgPath = "") →
      ∃ out, StructToMapByTag (.struct taggedFields) "json" = .ok out ∧
        (∀ k, k ∈ mapKeys out ↔
          ∃ fi ∈ taggedFields, tagGet fi.tags "json" ≠ "" ∧ tagGet fi.tags "json" = k) ∧
        (∀ fi ∈ taggedFields, tagGet fi.tags "json" ≠ "" →
          mapGet out (tagGet fi.tags "json") = some (.raw fi.value.Interface)) ∧
        out.length =
          (taggedFields.filter (fun fi => decide (tagGet fi.tags "json" ≠ ""))).length ∧
        (mapKeys out).Nodup ∧
        (∀ k, (¬ ∃ fi ∈ taggedFields,
            tagGet fi.tags "json" ≠ "" ∧ tagGet fi.tags "json" = k) →
          mapGet out k = none)) ∧
    ((∃ fi ∈ taggedFields, tagGet fi.tags "json" ≠ "" ∧ fi.pkgPath ≠ "") →
      StructToMapByTag (.struct taggedFields) "json" = .error interfacePanicMsg)) :=
  have hsc : ∀ fi ∈ taggedFields, tagGet fi.tags "json" ≠ "" →
      ∃ s, fi.value.Interface = .scalar s := by
    intro fi hfi _
    simp only [taggedFields, List.mem_cons, List.mem_singleton, List.not_mem_nil, or_false] at hfi
    rcases hfi with h | h | h <;> subst h <;> exact ⟨_, rfl⟩
  ⟨⟨by decide, hsc, by decide⟩,
    StructToMapByTag_tagged_scalars taggedFields "json" (by decide) hsc (by decide)⟩

/-! ## Nested records, sequences, empty containers and maps -/

/-- A selected field of interface type is stored as `Interface()` hands it
over, whatever it holds. -/
theorem stores_raw_of_iface (pre post : List StructField) (fi : StructField) (tag : String)
    (out : FlatMap) (held : Option Value) (hv : fi.value = .iface held)
    (hs : selected fi tag)
    (h : StructToMapByTag (.struct (pre ++ fi :: post)) tag = .ok out) :
    storesForField pre post fi tag (.raw fi.value.Interface) out ∧
    (notOverwritten post fi tag →
      mapGet out (exposedName fi tag) = some (.raw fi.value.Interface)) := by
  obtain ⟨x, hx, hst, hget⟩ := stores_of_ok pre post fi tag out hs h
  rw [fieldValue_of_exported fi tag (exported_of_fieldValue_ok fi tag x hx), hv,
    storedValue_iface] at hx
  cases hx
  rw [hv]
  exact ⟨hst, hget⟩

/-- A selected unexported field makes the call fail, with the panic of
`Interface()` when the fields before it are walked without failure. -/
theorem unexported_field_fails (pre post : List StructField) (fi : StructField)
    (tag : String) (hs : selected fi tag) (hp : fi.pkgPath ≠ "") :
    (StructToMapByTag (.struct (pre ++ fi :: post)) tag).isOk = false ∧
    ∀ mid, fieldLoop pre tag [] = .ok mid →
      StructToMapByTag (.struct (pre ++ fi :: post)) tag = .error interfacePanicMsg := by
  constructor
  · obtain ⟨e2, he2⟩ := error_of_field_error pre post fi tag interfacePanicMsg hs
      (fieldValue_of_unexported fi tag hp)
    rw [he2]
    rfl
  · intro mid hmid
    exact error_at_field pre post fi tag mid interfacePanicMsg hs hmid
      (fieldValue_of_unexported fi tag hp)

/-- A selected field whose value is computed without failure does not change
whether the call fails. -/
theorem ok_field_isOk (pre post : List StructField) (fi : StructField) (tag : String)
    (x : FlatValue) (hs : selected fi tag) (hx : fieldValue fi tag = .ok x) :
    (StructToMapByTag (.struct (pre ++ fi :: post)) tag).isOk =
      (StructToMapByTag (.struct (pre ++ post)) tag).isOk := by
  rw [StructToMapByTag_struct, StructToMapByTag_struct, fieldItems_append, fieldItems_append,
    fieldItems_cons_selected fi post tag hs, storeAll_append, storeAll_append, hx]
  cases hpre : storeAll (fieldItems pre tag) [] with
  | error e => rfl
  | ok mid =>
    simp only [storeAll]
    exact storeAll_isOk_acc _ _ _

/-- An exported selected field holding an empty container does not change
whether the call fails. -/
theorem empty_field_isOk (pre post : List StructField) (fi : StructField) (tag : String)
    (hv : fi.value.Interface = .slice [] ∨ fi.value.Interface = .array [] ∨
      fi.value.Interface = .map [])
    (hs : selected fi tag) (hp : fi.pkgPath = "") :
    (StructToMapByTag (.struct (pre ++ fi :: post)) tag).isOk =
      (StructToMapByTag (.struct (pre ++ post)) tag).isOk :=
  ok_field_isOk pre post fi tag (.raw fi.value.Interface) hs
    (by rw [fieldValue_of_exported fi tag hp, storedValue_empty fi.value tag hv])

/-- Whenever the call returns, a selected field holding an empty container has
been stored as it is. -/
theorem empty_field_stored (pre post : List StructField) (fi : StructField) (tag : String)
    (out : FlatMap)
    (hv : fi.value.Interface = .slice [] ∨ fi.value.Interface = .array [] ∨
      fi.value.Interface = .map [])
    (hs : selected fi tag)
    (h : StructToMapByTag (.struct (pre ++ fi :: post)) tag = .ok out) :
    fi.pkgPath = "" ∧ storesForField pre post fi tag (.raw fi.value.Interface) out ∧
      (notOverwritten post fi tag →
        mapGet out (exposedName fi tag) = some (.raw fi.value.Interface)) := by
  obtain ⟨x, hx, hst, hget⟩ := stores_of_ok pre post fi tag out hs h
  have hp := exported_of_fieldValue_ok fi tag x hx
  rw [fieldValue_of_exported fi tag hp, storedValue_empty fi.value tag hv] at hx
  cases hx
  exact ⟨hp, hst, hget⟩

/-- Counterexample to claim C3, twice.  In a record whose fields `Outer` and
`Later` are both tagged `json:"name"`, `Outer` holds the record `{A: 1}`, yet
the output holds under `name` the number of `Later`, not the flattening of
`Outer`.  And a field `I interface{}` holding the record `{A: 1}` is stored as
that record, not as its flattening `{"A": 1}`. -/
theorem StructToMapByTag_nested_record_not_flattened :
    (selected taggedRecordField "json" ∧
      taggedRecordField.value = recordA 1 ∧
      StructToMapByTag (recordA 1) "json" = .ok [] ∧
      ∃ out, StructToMapByTag (.struct [taggedRecordField, laterField]) "json" = .ok out ∧
        mapGet out (exposedName taggedRecordField "json") = some (.raw (.scalar (.int 5))) ∧
        mapGet out (exposedName taggedRecordField "json") ≠ some (.node [])) ∧
    (ifaceRecordField.value.Interface = recordA 1 ∧
      StructToMapByTag (recordA 1) "" = .ok [("A", .raw (.scalar (.int 1)))] ∧
      StructToMapByTag (.struct [ifaceRecordField]) "" = .ok [("I", .raw (recordA 1))]) :=
  ⟨⟨by decide, rfl, rfl, _, rfl, rfl, by
    intro h
    simp [mapGet, exposedName, taggedRecordField, StructField.tags, tagGet] at h⟩,
    rfl, rfl, rfl⟩

/-- Claim C3, amended to what the code does: whenever the call returns, a
selected field is exported; if it is of struct type, or of pointer type with a
struct behind the pointer, it has been assigned under its exposed name the
flattening `m` of that record with the same selector (`m` is again an output
of `StructToMapByTag`, so the same holds at every depth), and the output holds
`m` there unless a field behind it is stored under the same name; if it is of
interface type it has been assigned what it holds as it is, a record
included. -/
theorem StructToMapByTag_nested_record (pre post : List StructField) (fi : StructField)
    (tag : String) (out : FlatMap)
    (hs : selected fi tag)
    (h : StructToMapByTag (.struct (pre ++ fi :: post)) tag = .ok out) :
    fi.pkgPath = "" ∧
    (∀ gs, (fi.value = .struct gs ∨ fi.value = .ptr (some (.struct gs))) →
      ∃ m, StructToMapByTag (.struct gs) tag = .ok m ∧
        StructToMapByTag fi.value tag = .ok m ∧
        storesForField pre post fi tag (.node m) out ∧
        (notOverwritten post fi tag → mapGet out (exposedName fi tag) = some (.node m))) ∧
    (∀ held, fi.value = .iface held →
      storesForField pre post fi tag (.raw fi.value.Interface) out ∧
      (notOverwritten post fi tag →
        mapGet out (exposedName fi tag) = some (.raw fi.value.Interface))) := by
  refine ⟨exported_of_ok pre post fi tag out hs h, ?_,
    fun held hv => stores_raw_of_iface pre post fi tag out held hv hs h⟩
  intro gs hv
  obtain ⟨x, hx, hst, hget⟩ := stores_of_ok pre post fi tag out hs h
  rw [fieldValue_of_exported fi tag (exported_of_fieldValue_ok fi tag x hx),
    storedValue_record fi.value gs tag hv] at hx
  cases hm : StructToMapByTag fi.value tag with
  | error e => simp [hm] at hx
  | ok m =>
    simp only [hm, Except.ok.injEq] at hx
    subst hx
    refine ⟨m, ?_, rfl, hst, hget⟩
    rcases hv with h1 | h1
    · rw [← h1, hm]
    · rw [← StructToMapByTag_ptr_struct, ← h1, hm]

/-- Witness for the amended claim C3, at the record
`{Outer: {Inner: {A: 1}}}` with no selector, whose output is
`{"Outer": {"Inner": {"A": 1}}}`. -/
theorem StructToMapByTag_nested_record_witness :
    (selected outerField "" ∧
      StructToMapByTag (.struct ([] ++ outerField :: [])) "" = .ok outerFlat) ∧
    outerField.value = .struct [.mk "Inner" "" [] (recordA 1)] ∧
    ∃ m, StructToMapByTag (.struct [.mk "Inner" "" [] (recordA 1)]) "" = .ok m ∧
      StructToMapByTag outerField.value "" = .ok m ∧
      storesForField [] [] outerField "" (.node m) outerFlat ∧
      (notOverwritten [] outerField "" →
        mapGet outerFlat (exposedName outerField "") = some (.node m)) :=
  ⟨⟨Or.inl rfl, rfl⟩, rfl,
    (StructToMapByTag_nested_record [] [] outerField "" outerFlat (Or.inl rfl) rfl).2.1
      [.mk "Inner" "" [] (recordA 1)] (Or.inl rfl)⟩

/-- Counterexample to claim C4, twice.  In a record whose fields `List` and
`Later` are both tagged `json:"name"`, `List` holds `[{A:1},{A:2}]`, yet the
output holds under `name` the number of `Later`, not a sequence.  And a field
`I interface{}` holding `[{A:1},{A:2}]` is stored as that slice, not as a
sequence of flattenings. -/
theorem StructToMapByTag_sequence_not_flattened :
    (selected taggedListField "json" ∧
      taggedListField.value = .slice [recordA 1, recordA 2] ∧
      ∃ out, StructToMapByTag (.struct [taggedListField, laterField]) "json" = .ok out ∧
        mapGet out (exposedName taggedListField "json") = some (.raw (.scalar (.int 5))) ∧
        ∀ xs, mapGet out (exposedName taggedListField "json") ≠ some (.seq xs)) ∧
    (ifaceListField.value.Interface = .slice [recordA 1, recordA 2] ∧
      StructToMapByTag (.struct [ifaceListField]) "" =
        .ok [("I", .raw (.slice [recordA 1, recordA 2]))]) :=
  ⟨⟨by decide, rfl, _, rfl, rfl, by
    intro xs h
    simp [mapGet, exposedName, taggedListField, StructField.tags, tagGet] at h⟩,
    rfl, rfl⟩

/-- Claim C4, amended to what the code does: whenever the call returns, a
selected field is exported; if it is of slice or array type and not empty, it
has been assigned under its exposed name a sequence of the same length whose
i-th element is the flattening, with the same selector, of the i-th element,
and the output holds that sequence there unless a field behind it is stored
under the same name; if it is of interface type it has been assigned what it
holds as it is, a sequence of records included. -/
theorem StructToMapByTag_sequence (pre post : List StructField) (fi : StructField)
    (tag : String) (out : FlatMap)
    (hs : selected fi tag)
    (h : StructToMapByTag (.struct (pre ++ fi :: post)) tag = .ok out) :
    fi.pkgPath = "" ∧
    (∀ es : List Value, (fi.value = .slice es ∨ fi.value = .array es) → es ≠ [] →
      ∃ xs : List FlatValue, storesForField pre post fi tag (.seq xs) out ∧
        (notOverwritten post fi tag → mapGet out (exposedName fi tag) = some (.seq xs)) ∧
        xs.length = es.length ∧
        ∀ (i : Nat) (e : Value), es[i]? = some e →
          ∃ m, StructToMapByTag e tag = .ok m ∧ xs[i]? = some (FlatValue.node m)) ∧
    (∀ held, fi.value = .iface held →
      storesForField pre post fi tag (.raw fi.value.Interface) out ∧
      (notOverwritten post fi tag →
        mapGet out (exposedName fi tag) = some (.raw fi.value.Interface))) := by
  refine ⟨exported_of_ok pre post fi tag out hs h, ?_,
    fun held hv => stores_raw_of_iface pre post fi tag out held hv hs h⟩
  intro es hv hne
  obtain ⟨x, hx, hst, hget⟩ := stores_of_ok pre post fi tag out hs h
  rw [fieldValue_of_exported fi tag (exported_of_fieldValue_ok fi tag x hx),
    storedValue_sequence fi.value es tag hv hne] at hx
  cases hl : elemLoop false es tag [] with
  | error e => simp [hl] at hx
  | ok xs =>
    simp only [hl, Except.ok.injEq] at hx
    subst hx
    obtain ⟨ys, hys, hall⟩ := elemLoop_ok es tag [] xs hl
    simp only [List.nil_append] at hys
    subst hys
    refine ⟨xs, hst, hget, hall.length_eq.symm, ?_⟩
    intro i e hie
    obtain ⟨y, hy, m, hm, hym⟩ := forall₂_getElem_opt hall i e hie
    exact ⟨m, hm, by rw [hy, hym]⟩

/-- Witness for the amended claim C4, at a record whose field `List` holds
`[{A:1},{A:2}]`, whose output holds `[{"A":1},{"A":2}]` in that order. -/
theorem StructToMapByTag_sequence_witness :
    (selected listField "" ∧
      StructToMapByTag (.struct ([] ++ listField :: [])) "" = .ok listFlat) ∧
    listField.value = .slice [recordA 1, recordA 2] ∧
    ∃ xs : List FlatValue, storesForField [] [] listField "" (.seq xs) listFlat ∧
      (notOverwritten [] listField "" →
        mapGet listFlat (exposedName listField "") = some (.seq xs)) ∧
      xs.length = [recordA 1, recordA 2].length ∧
      ∀ (i : Nat) (e : Value), [recordA 1, recordA 2][i]? = some e →
        ∃ m, StructToMapByTag e "" = .ok m ∧ xs[i]? = some (FlatValue.node m) :=
  ⟨⟨Or.inl rfl, rfl⟩, rfl,
    (StructToMapByTag_sequence [] [] listField "" listFlat (Or.inl rfl) rfl).2.1
      [recordA 1, recordA 2] (Or.inl rfl) (by simp)⟩

/-- Counterexample to claim C5, twice.  In a record whose fields `Empty` and
`Later` are both tagged `json:"name"`, `Empty` holds an empty slice, yet the
output holds under `name` the number of `Later`, not the empty slice.  And the
record whose one field `items` is unexported and holds an empty slice makes
the call panic in `Interface()`, while the record without that field
flattens. -/
theorem StructToMapByTag_empty_container_lost :
    (selected taggedEmptyField "json" ∧
      taggedEmptyField.value = .slice [] ∧
      ∃ out, StructToMapByTag (.struct [taggedEmptyField, laterField]) "json" = .ok out ∧
        mapGet out (exposedName taggedEmptyField "json") = some (.raw (.scalar (.int 5))) ∧
        mapGet out (exposedName taggedEmptyField "json") ≠ some (.raw (.slice []))) ∧
    (selected unexportedEmptyField "" ∧
      unexportedEmptyField.value = .slice [] ∧
      StructToMapByTag (.struct [unexportedEmptyField]) "" = .error interfacePanicMsg ∧
      StructToMapByTag (.struct []) "" = .ok []) :=
  ⟨⟨by decide, rfl, _, rfl, rfl, by
    intro h
    simp [mapGet, exposedName, taggedEmptyField, StructField.tags, tagGet, Value.Interface] at h⟩,
    by decide, rfl, rfl, rfl⟩

/-- Claim C5, amended to what the code does: take a selected field holding an
empty slice, array or map (in a field of that type or of interface type).
When the field is exported it never makes the call fail: the call fails
exactly when it fails on the record without that field.  When the field is
unexported the call fails, with the panic of `Interface()` if the fields
before it are walked without failure.  Whenever the call returns, the field is
exported and that same empty container has been assigned, as it is and without
recursing into it, under the exposed name, and the output holds it there
unless a field behind it is stored under the same name. -/
theorem StructToMapByTag_empty_container (pre post : List StructField) (fi : StructField)
    (tag : String)
    (hv : fi.value.Interface = .slice [] ∨ fi.value.Interface = .array [] ∨
      fi.value.Interface = .map [])
    (hs : selected fi tag) :
    (fi.pkgPath = "" →
      (StructToMapByTag (.struct (pre ++ fi :: post)) tag).isOk =
        (StructToMapByTag (.struct (pre ++ post)) tag).isOk) ∧
    (fi.pkgPath ≠ "" →
      (StructToMapByTag (.struct (pre ++ fi :: post)) tag).isOk = false ∧
      ∀ mid, fieldLoop pre tag [] = .ok mid →
        StructToMapByTag (.struct (pre ++ fi :: post)) tag = .error interfacePanicMsg) ∧
    ∀ out, StructToMapByTag (.struct (pre ++ fi :: post)) tag = .ok out →
      fi.pkgPath = "" ∧
      storesForField pre post fi tag (.raw fi.value.Interface) out ∧
      (notOverwritten post fi tag →
        mapGet out (exposedName fi tag) = some (.raw fi.value.Interface)) :=
  ⟨fun hp => empty_field_isOk pre post fi tag hv hs hp,
    fun hp => unexported_field_fails pre post fi tag hs hp,
    fun out h => empty_field_stored pre post fi tag out hv hs h⟩

/-- Witness for the amended claim C5, at a record with an empty slice behind
three scalar fields and before a field holding a sequence. -/
theorem StructToMapByTag_empty_container_witness :
    (emptyField.value.Interface = .slice [] ∧ selected emptyField "") ∧
    ((emptyField.pkgPath = "" →
      (StructToMapByTag (.struct (personFields ++ emptyField :: [listField])) "").isOk =
        (StructToMapByTag (.struct (personFields ++ [listField])) "").isOk) ∧
    (emptyField.pkgPath ≠ "" →
      (StructToMapByTag (.struct (personFields ++ emptyField :: [listField])) "").isOk = false ∧
      ∀ mid, fieldLoop personFields "" [] = .ok mid →
        StructToMapByTag (.struct (personFields ++ emptyField :: [listField])) "" =
          .error interfacePanicMsg) ∧
    ∀ out, StructToMapByTag (.struct (personFields ++ emptyField :: [listField])) "" = .ok out →
      emptyField.pkgPath = "" ∧
      storesForField personFields [listField] emptyField "" (.raw emptyField.value.Interface) out ∧
      (notOverwritten [listField] emptyField "" →
        mapGet out (exposedName emptyField "") = some (.raw emptyField.value.Interface))) :=
  ⟨⟨rfl, Or.inl rfl⟩,
    StructToMapByTag_empty_container personFields [listField] emptyField ""
      (Or.inl rfl) (Or.inl rfl)⟩

/-- Counterexample to claim C6, twice.  In a record whose fields `Map` and
`Later` are both tagged `json:"name"`, `Map` holds the string-keyed map of the
test, yet the output holds under `name` the number of `Later`, not a nested
map.  And in a field `M map[string]interface{}` the entry `"a"` holding the
record `{A: 1}` maps to that record, not to its flattening `{"A": 1}`. -/
theorem StructToMapByTag_string_keyed_map_not_flattened :
    (selected taggedMapField "json" ∧
      taggedMapField.value = .map testMapEntries ∧
      ∃ out, StructToMapByTag (.struct [taggedMapField, laterField]) "json" = .ok out ∧
        mapGet out (exposedName taggedMapField "json") = some (.raw (.scalar (.int 5))) ∧
        ∀ m, mapGet out (exposedName taggedMapField "json") ≠ some (.node m)) ∧
    (ifaceMapField.value = .map [(.str "a", .iface (some (recordA 1)))] ∧
      StructToMapByTag (recordA 1) "" = .ok [("A", .raw (.scalar (.int 1)))] ∧
      StructToMapByTag (.struct [ifaceMapField]) "" =
        .ok [("M", .node [("a", .raw (recordA 1))])]) :=
  ⟨⟨by decide, rfl, _, rfl, rfl, by
    intro m h
    simp [mapGet, exposedName, taggedMapField, StructField.tags, tagGet] at h⟩,
    rfl, rfl, rfl⟩

/-- Claim C6, amended to what the code does: whenever the call returns, a
selected field is exported; if it is of map type with string keys and not
empty, it has been assigned under its exposed name a nested map with exactly
the same keys, in which an entry of struct type maps to the flattening of that
record with the same selector, an entry holding a scalar maps to that scalar
unchanged, and an entry of interface type maps to what it holds as it is, a
record included; the output holds that nested map under the exposed name
unless a field behind it is stored under the same name; if the field is of
interface type it has been assigned what it holds as it is.  (The keys of a
Go map are pairwise distinct.) -/
theorem StructToMapByTag_string_keyed_map (pre post : List StructField) (fi : StructField)
    (tag : String) (out : FlatMap)
    (hs : selected fi tag)
    (h : StructToMapByTag (.struct (pre ++ fi :: post)) tag = .ok out) :
    fi.pkgPath = "" ∧
    (∀ entries : List (MapKey × Value), fi.value = .map entries → entries ≠ [] →
      (∀ en ∈ entries, ∃ s, en.1 = .str s) → (entries.map Prod.fst).Nodup →
      ∃ m, storesForField pre post fi tag (.node m) out ∧
        (notOverwritten post fi tag → mapGet out (exposedName fi tag) = some (.node m)) ∧
        (∀ k, k ∈ mapKeys m ↔ ∃ en ∈ entries, en.1 = .str k) ∧
        (∀ en ∈ entries, ∀ k, en.1 = .str k →
          (∀ gs, en.2 = .struct gs →
            ∃ m2, StructToMapByTag en.2 tag = .ok m2 ∧ mapGet m k = some (.node m2)) ∧
          (∀ s, en.2.Interface = .scalar s → mapGet m k = some (.raw (.scalar s))) ∧
          (∀ held, en.2 = .iface held → mapGet m k = some (.raw en.2.Interface)))) ∧
    (∀ held, fi.value = .iface held →
      storesForField pre post fi tag (.raw fi.value.Interface) out ∧
      (notOverwritten post fi tag →
        mapGet out (exposedName fi tag) = some (.raw fi.value.Interface))) := by
  refine ⟨exported_of_ok pre post fi tag out hs h, ?_,
    fun held hv => stores_raw_of_iface pre post fi tag out held hv hs h⟩
  intro entries hv hne hstr hnodup
  obtain ⟨x, hx, hst, hget⟩ := stores_of_ok pre post fi tag out hs h
  rw [fieldValue_of_exported fi tag (exported_of_fieldValue_ok fi tag x hx),
    storedValue_mapping false fi.value entries tag hv hne] at hx
  cases hl : storeAll (entryItems false entries tag) [] with
  | error e => simp [hl] at hx
  | ok m =>
    simp only [hl, Except.ok.injEq] at hx
    subst hx
    refine ⟨m, hst, hget, ?_, ?_⟩
    · intro k
      rw [storeAll_mem_keys _ [] m hl k]
      simp only [mapKeys, List.map_nil, List.not_mem_nil, false_or]
      constructor
      · rintro ⟨it, hit, hk⟩
        rw [mem_entryItems] at hit
        obtain ⟨en, hen, rfl⟩ := hit
        obtain ⟨s, hs2⟩ := hstr en hen
        refine ⟨en, hen, ?_⟩
        rw [hs2] at hk ⊢
        simp only [MapKey.String] at hk
        rw [hk]
      · rintro ⟨en, hen, hk⟩
        exact ⟨(en.1.String, entryValue false en.2 tag),
          (mem_entryItems false entries tag _).mpr ⟨en, hen, rfl⟩, by simp [hk, MapKey.String]⟩
    · intro en hen k hk
      obtain ⟨epre, epost, hsplit⟩ := List.append_of_mem hen
      subst hsplit
      have hitems : entryItems false (epre ++ en :: epost) tag =
          entryItems false epre tag ++ (k, entryValue false en.2 tag) ::
            entryItems false epost tag := by
        simp [entryItems, hk, MapKey.String]
      rw [hitems] at hl
      have hlast : ∀ it ∈ entryItems false epost tag, it.1 ≠ k := by
        intro it hit hc
        rw [mem_entryItems] at hit
        obtain ⟨g, hg, rfl⟩ := hit
        obtain ⟨s, hs2⟩ := hstr g (by simp [hg])
        simp only [hs2, MapKey.String] at hc
        apply nodup_map_split Prod.fst epre epost en hnodup g hg
        rw [hs2, hk, hc]
      obtain ⟨y, hy, hgetk⟩ := storeAll_get_last _ _ k _ [] m hl hlast
      refine ⟨?_, ?_, ?_⟩
      · intro gs hgs
        rw [hgs, entryValue_struct] at hy
        rw [hgs]
        cases hm2 : StructToMapByTag (.struct gs) tag with
        | error e => simp [hm2] at hy
        | ok m2 =>
          simp only [hm2, Except.ok.injEq] at hy
          exact ⟨m2, rfl, by rw [hgetk, hy]⟩
      · intro s hsc
        rw [entryValue_scalar en.2 s tag hsc] at hy
        simp only [Except.ok.injEq] at hy
        rw [hgetk, hy]
      · intro held hheld
        rw [hheld, entryValue_iface] at hy
        simp only [Except.ok.injEq] at hy
        rw [hgetk, hheld, hy]

/-- Witness for the amended claim C6, at the `Map` field of the record of
`TestStructToMap`. -/
theorem StructToMapByTag_string_keyed_map_witness :
    (selected testMapField "" ∧
      StructToMapByTag (.struct (personFields ++ testMapField :: [])) "" =
        .ok [("FirstName", .raw (.scalar (.str "jiaran"))),
             ("LastName", .raw (.scalar (.str "wang"))),
             ("Age", .raw (.scalar (.int 23))),
             ("Map", .node testMapFlat)]) ∧
    (testMapField.value = .map testMapEntries ∧ testMapEntries ≠ [] ∧
      (∀ en ∈ testMapEntries, ∃ s, en.1 = MapKey.str s) ∧
      (testMapEntries.map Prod.fst).Nodup) ∧
    ∃ m, storesForField personFields [] testMapField "" (.node m)
        [("FirstName", .raw (.scalar (.str "jiaran"))),
         ("LastName", .raw (.scalar (.str "wang"))),
         ("Age", .raw (.scalar (.int 23))),
         ("Map", .node testMapFlat)] ∧
      (notOverwritten [] testMapField "" →
        mapGet [("FirstName", FlatValue.raw (.scalar (.str "jiaran"))),
             ("LastName", .raw (.scalar (.str "wang"))),
             ("Age", .raw (.scalar (.int 23))),
             ("Map", .node testMapFlat)] (exposedName testMapField "") = some (.node m)) ∧
      (∀ k, k ∈ mapKeys m ↔ ∃ en ∈ testMapEntries, en.1 = .str k) ∧
      (∀ en ∈ testMapEntries, ∀ k, en.1 = .str k →
        (∀ gs, en.2 = .struct gs →
          ∃ m2, StructToMapByTag en.2 "" = .ok m2 ∧ mapGet m k = some (.node m2)) ∧
        (∀ s, en.2.Interface = .scalar s → mapGet m k = some (.raw (.scalar s))) ∧
        (∀ held, en.2 = .iface held → mapGet m k = some (.raw en.2.Interface))) :=
  have hstr : ∀ en ∈ testMapEntries, ∃ s, en.1 = MapKey.str s := by
    intro en hen
    simp only [testMapEntries, List.mem_cons, List.mem_singleton, List.not_mem_nil,
      or_false] at hen
    rcases hen with h | h <;> subst h <;> exact ⟨_, rfl⟩
  ⟨⟨Or.inl rfl, rfl⟩, ⟨rfl, by simp [testMapEntries], hstr, by decide⟩,
    (StructToMapByTag_string_keyed_map personFields [] testMapField "" _
      (Or.inl rfl) rfl).2.1 testMapEntries rfl (by simp [testMapEntries]) hstr (by decide)⟩

/-! ## Maps whose keys are not strings -/

/-- Counterexample to claim C9: the empty record flattens to the empty map,
but behind a pointer to a pointer the call panics. -/
theorem StructToMapByTag_double_pointer_panics :
    StructToMapByTag (.struct []) "" = .ok [] ∧
    StructToMapByTag (wrapPtr 2 (.struct [])) "" = .error panicMsg :=
  ⟨rfl, rfl⟩

/-- Claim C9, amended to what the code does: `StructToMapByTag` follows at
most one pointer.  On a record behind no pointer or behind one it gives the
same result, output or panic, as on the record itself; behind two or more
pointers it panics. -/
theorem StructToMapByTag_wrapPtr (fs : List StructField) (tag : String) (n : Nat) :
    StructToMapByTag (wrapPtr n (.struct fs)) tag =
      if n ≤ 1 then StructToMapByTag (.struct fs) tag else .error panicMsg := by
  match n with
  | 0 => rfl
  | 1 => exact StructToMapByTag_ptr_struct fs tag
  | k + 2 =>
    have hk : ¬ (k + 2 ≤ 1) := by omega
    rw [if_neg hk]
    apply StructToMapByTag_of_not_resolves
    simp [wrapPtr, resolvesToStruct, Value.kind, Value.elemKind, Value.Interface]

/-! ## `PhoneMasking` -/

/-- Claim C10 against the code: of a phone of six characters only the fourth
is masked, and a phone of five characters is returned unmasked, where keeping
two characters at each end asks for `12**56` and `12*45`; the code keeps three
characters at the front. -/
theorem PhoneMasking_keeps_three :
    PhoneMasking "123456" = "123*56" ∧ PhoneMasking "12345" = "12345" ∧
    PhoneMasking "13812345678" = "138******78" := by
  decide

/-! ## Go maps used as sets -/

theorem mem_keys_goMapSet {K V : Type} [DecidableEq K] (m : List (K × V)) (k k2 : K) (v : V) :
    k2 ∈ (goMapSet m k v).map Prod.fst ↔ k2 = k ∨ k2 ∈ m.map Prod.fst := by
  induction m with
  | nil => simp [goMapSet]
  | cons hd tl ih =>
    obtain ⟨k3, v3⟩ := hd
    by_cases h : k3 = k
    · subst h
      simp [goMapSet]
    · simp only [goMapSet, h, if_false, List.map_cons, List.mem_cons, ih]
      tauto

theorem nodup_keys_goMapSet {K V : Type} [DecidableEq K] (m : List (K × V)) (k : K) (v : V)
    (hm : (m.map Prod.fst).Nodup) : ((goMapSet m k v).map Prod.fst).Nodup := by
  induction m with
  | nil => simp [goMapSet]
  | cons hd tl ih =>
    obtain ⟨k3, v3⟩ := hd
    simp only [List.map_cons, List.nodup_cons] at hm
    by_cases h : k3 = k
    · subst h
      simpa [goMapSet] using hm
    · simp only [goMapSet, h, if_false, List.map_cons, List.nodup_cons]
      refine ⟨?_, ih hm.2⟩
      rw [mem_keys_goMapSet]
      intro hc
      rcases hc with hc | hc
      · exact h hc
      · exact hm.1 hc

theorem goMapHas_iff {K V : Type} [DecidableEq K] (m : List (K × V)) (k : K) :
    goMapHas m k = true ↔ k ∈ m.map Prod.fst := by
  induction m with
  | nil => simp [goMapHas]
  | cons hd tl ih =>
    obtain ⟨k3, v3⟩ := hd
    by_cases h : k3 = k
    · subst h
      simp [goMapHas]
    · simp only [goMapHas, h, if_false, ih, List.map_cons, List.mem_cons]
      constructor
      · exact Or.inr
      · rintro (hc | hc)
        · exact absurd hc.symm h
        · exact hc

theorem mem_keys_markAll {T : Type} [DecidableEq T] (items : List T) (m : List (T × Bool))
    (x : T) : x ∈ (markAll items m).map Prod.fst ↔ x ∈ m.map Prod.fst ∨ x ∈ items := by
  induction items generalizing m with
  | nil => simp [markAll]
  | cons item rest ih =>
    rw [markAll, ih, mem_keys_goMapSet, List.mem_cons]
    tauto

theorem nodup_keys_markAll {T : Type} [DecidableEq T] (items : List T) (m : List (T × Bool))
    (hm : (m.map Prod.fst).Nodup) : ((markAll items m).map Prod.fst).Nodup := by
  induction items generalizing m with
  | nil => simpa [markAll] using hm
  | cons item rest ih =>
    rw [markAll]
    exact ih _ (nodup_keys_goMapSet m item true hm)

theorem mem_keys_andLoop {T : Type} [DecidableEq T] (bMap : List (T × Bool)) (a : List T)
    (r : List (T × Bool)) (x : T) :
    x ∈ (andLoop bMap a r).map Prod.fst ↔
      x ∈ r.map Prod.fst ∨ (x ∈ a ∧ x ∈ bMap.map Prod.fst) := by
  induction a generalizing r with
  | nil => simp [andLoop]
  | cons item rest ih =>
    rw [andLoop]
    by_cases hb : goMapHas bMap item = true
    · rw [if_pos hb, ih, mem_keys_goMapSet, List.mem_cons]
      have hb2 := (goMapHas_iff bMap item).mp hb
      constructor
      · rintro ((h | h) | h)
        · exact Or.inr ⟨Or.inl h, by rw [h]; exact hb2⟩
        · exact Or.inl h
        · exact Or.inr ⟨Or.inr h.1, h.2⟩
      · rintro (h | ⟨h | h, h2⟩)
        · exact Or.inl (Or.inr h)
        · exact Or.inl (Or.inl h)
        · exact Or.inr ⟨h, h2⟩
    · rw [if_neg hb, ih, List.mem_cons]
      have hb2 : item ∉ bMap.map Prod.fst := fun hc => hb ((goMapHas_iff bMap item).mpr hc)
      constructor
      · rintro (h | h)
        · exact Or.inl h
        · exact Or.inr ⟨Or.inr h.1, h.2⟩
      · rintro (h | ⟨h | h, h2⟩)
        · exact Or.inl h
        · rw [h] at h2
          exact absurd h2 hb2
        · exact Or.inr ⟨h, h2⟩

theorem nodup_keys_andLoop {T : Type} [DecidableEq T] (bMap : List (T × Bool)) (a : List T)
    (r : List (T × Bool)) (hr : (r.map Prod.fst).Nodup) :
    ((andLoop bMap a r).map Prod.fst).Nodup := by
  induction a generalizing r with
  | nil => simpa [andLoop] using hr
  | cons item rest ih =>
    rw [andLoop]
    split
    · exact ih _ (nodup_keys_goMapSet r item true hr)
    · exact ih _ hr

theorem mem_keys_subLoop {T : Type} [DecidableEq T] (bMap : List (T × Bool)) (a : List T)
    (r : List (T × Bool)) (x : T) :
    x ∈ (subLoop bMap a r).map Prod.fst ↔
      x ∈ r.map Prod.fst ∨ (x ∈ a ∧ x ∉ bMap.map Prod.fst) := by
  induction a generalizing r with
  | nil => simp [subLoop]
  | cons item rest ih =>
    rw [subLoop]
    by_cases hb : goMapHas bMap item = true
    · have hb2 := (goMapHas_iff bMap item).mp hb
      simp only [hb, Bool.not_true, Bool.false_eq_true, if_false]
      rw [ih, List.mem_cons]
      constructor
      · rintro (h | h)
        · exact Or.inl h
        · exact Or.inr ⟨Or.inr h.1, h.2⟩
      · rintro (h | ⟨h | h, h2⟩)
        · exact Or.inl h
        · rw [h] at h2
          exact absurd hb2 h2
        · exact Or.inr ⟨h, h2⟩
    · have hb2 : item ∉ bMap.map Prod.fst := fun hc => hb ((goMapHas_iff bMap item).mpr hc)
      have hb3 : goMapHas bMap item = false := by
        cases h : goMapHas bMap item with
        | false => rfl
        | true => exact absurd h hb
      simp only [hb3, Bool.not_false, if_true]
      rw [ih, mem_keys_goMapSet, List.mem_cons]
      constructor
      · rintro ((h | h) | h)
        · exact Or.inr ⟨Or.inl h, by rw [h]; exact hb2⟩
        · exact Or.inl h
        · exact Or.inr ⟨Or.inr h.1, h.2⟩
      · rintro (h | ⟨h | h, h2⟩)
        · exact Or.inl (Or.inr h)
        · exact Or.inl (Or.inl h)
        · exact Or.inr ⟨h, h2⟩

theorem nodup_keys_subLoop {T : Type} [DecidableEq T] (bMap : List (T × Bool)) (a : List T)
    (r : List (T × Bool)) (hr : (r.map Prod.fst).Nodup) :
    ((subLoop bMap a r).map Prod.fst).Nodup := by
  induction a generalizing r with
  | nil => simpa [subLoop] using hr
  | cons item rest ih =>
    rw [subLoop]
    split
    · exact ih _ (nodup_keys_goMapSet r item true hr)
    · exact ih _ hr

/-! ## `AndSlice`, `SubSlice` and `Unique` -/

/-- Claim C11 against the code: on the slices of `TestAndSlice` the result
follows the order in which the runtime ranges over the map. When the key 2 is
visited before the key 3 the result is `[2, 3]`, where the test wants 3 at
index 0 and 2 at index 1; only when the keys are visited as they were inserted
is it `[3, 2]`. -/
theorem AndSlice_follows_range_order :
    (∀ l : List Int, l.reverse.Perm l) ∧
    AndSlice List.reverse ([1, 1, 3, 3, 2, 2] : List Int) [3, 2, 2, 5] = [2, 3] ∧
    AndSlice id ([1, 1, 3, 3, 2, 2] : List Int) [3, 2, 2, 5] = [3, 2] :=
  ⟨fun l => List.reverse_perm l, by decide, by decide⟩

/-- Claim C12: whatever the order in which the runtime ranges over the map,
a value occurs in `SubSlice(a, b)` exactly when it occurs in `a` and not in
`b`, and no value occurs in it more than once. -/
theorem SubSlice_is_difference {T : Type} [DecidableEq T] (order : List T → List T)
    (horder : ∀ l, (order l).Perm l) (a b : List T) :
    (∀ x, x ∈ SubSlice order a b ↔ x ∈ a ∧ x ∉ b) ∧ (SubSlice order a b).Nodup := by
  constructor
  · intro x
    simp only [SubSlice, rangeKeys]
    rw [(horder _).mem_iff, mem_keys_subLoop, mem_keys_markAll]
    simp
  · simp only [SubSlice, rangeKeys]
    rw [(horder _).nodup_iff]
    exact nodup_keys_subLoop _ a [] (by simp)

/-- Witness for claim C12, at the slices of `TestSubSlice`, whose difference
is `[1]`. -/
theorem SubSlice_is_difference_witness :
    (∀ l : List Int, l.reverse.Perm l) ∧
    SubSlice List.reverse ([1, 1, 3, 3, 2, 2] : List Int) [3, 2, 2, 5] = [1] ∧
    ((∀ x, x ∈ SubSlice List.reverse ([1, 1, 3, 3, 2, 2] : List Int) [3, 2, 2, 5] ↔
        x ∈ ([1, 1, 3, 3, 2, 2] : List Int) ∧ x ∉ ([3, 2, 2, 5] : List Int)) ∧
      (SubSlice List.reverse ([1, 1, 3, 3, 2, 2] : List Int) [3, 2, 2, 5]).Nodup) :=
  ⟨fun l => List.reverse_perm l, by decide,
    SubSlice_is_difference List.reverse (fun l => List.reverse_perm l) _ _⟩

/-- Claim C13: whatever the order in which the runtime ranges over the map,
`Unique(data)` has no two equal elements at different positions, holds exactly
the values that occur in `data`, and so has as many elements as `data` has
distinct values; it is empty for empty `data`. -/
theorem Unique_distinct_values {T : Type} [DecidableEq T] (order : List T → List T)
    (horder : ∀ l, (order l).Perm l) (data : List T) :
    (Unique order data).Nodup ∧
    (∀ x, x ∈ Unique order data ↔ x ∈ data) ∧
    (Unique order data).length = data.dedup.length ∧
    (Unique order data).length = data.toFinset.card ∧
    Unique order ([] : List T) = [] := by
  have hnodup : (Unique order data).Nodup := by
    simp only [Unique]
    split
    · exact List.nodup_nil
    · simp only [rangeKeys]
      rw [(horder _).nodup_iff]
      exact nodup_keys_markAll data [] (by simp)
  have hmem : ∀ x, x ∈ Unique order data ↔ x ∈ data := by
    intro x
    simp only [Unique]
    split
    · rename_i hlen
      have : data = [] := by
        cases data with
        | nil => rfl
        | cons _ _ => simp at hlen
      simp [this]
    · simp only [rangeKeys]
      rw [(horder _).mem_iff, mem_keys_markAll]
      simp
  have hlen : (Unique order data).length = data.dedup.length := by
    apply List.Perm.length_eq
    rw [List.perm_ext_iff_of_nodup hnodup (List.nodup_dedup data)]
    intro x
    rw [hmem, List.mem_dedup]
  refine ⟨hnodup, hmem, hlen, ?_, by simp [Unique]⟩
  rw [hlen, List.card_toFinset]

/-- Witness for claim C13, at the slice of `TestUnique`, which has four
distinct values. -/
theorem Unique_distinct_values_witness :
    (∀ l : List Int, l.reverse.Perm l) ∧
    Unique List.reverse ([1, 1, 2, 3, 3, 4] : List Int) = [4, 3, 2, 1] ∧
    ((Unique List.reverse ([1, 1, 2, 3, 3, 4] : List Int)).Nodup ∧
    (∀ x, x ∈ Unique List.reverse ([1, 1, 2, 3, 3, 4] : List Int) ↔
      x ∈ ([1, 1, 2, 3, 3, 4] : List Int)) ∧
    (Unique List.reverse ([1, 1, 2, 3, 3, 4] : List Int)).length =
      ([1, 1, 2, 3, 3, 4] : List Int).dedup.length ∧
    (Unique List.reverse ([1, 1, 2, 3, 3, 4] : List Int)).length =
      ([1, 1, 2, 3, 3, 4] : List Int).toFinset.card ∧
    Unique List.reverse ([] : List Int) = []) ∧
    ([1, 1, 2, 3, 3, 4] : List Int).toFinset.card = 4 :=
  ⟨fun l => List.reverse_perm l, by decide,
    Unique_distinct_values List.reverse (fun l => List.reverse_perm l) _, by decide⟩

/-! ## `Zip` -/

theorem zipLoop_eq {T U : Type} (s1 : List T) (s2 : List U) (result : List (Tuple T U)) :
    zipLoop s1 s2 result = result ++ List.zipWith Tuple.mk s1 s2 := by
  induction s1 generalizing s2 result with
  | nil => simp [zipLoop]
  | cons x xs ih =>
    cases s2 with
    | nil => simp [zipLoop]
    | cons y ys =>
      rw [zipLoop, ih]
      simp

/-- Claim C14: `Zip(s1, s2)` has length `min(len(s1), len(s2))` and its i-th
element, for every index below that length, is the tuple of the i-th elements
of `s1` and `s2`; it is empty when either input is empty, and what the longer
input has beyond the shorter is dropped. -/
theorem Zip_spec {T U : Type} (s1 : List T) (s2 : List U) :
    (Zip s1 s2).length = min s1.length s2.length ∧
    (∀ (i : Nat) (x : T) (y : U), s1[i]? = some x → s2[i]? = some y →
      (Zip s1 s2)[i]? = some (Tuple.mk x y)) ∧
    (∀ (i : Nat), min s1.length s2.length ≤ i → (Zip s1 s2)[i]? = none) ∧
    Zip ([] : List T) s2 = [] ∧ Zip s1 ([] : List U) = [] := by
  have hz : Zip s1 s2 = List.zipWith Tuple.mk s1 s2 := by
    simp [Zip, zipLoop_eq]
  refine ⟨?_, ?_, ?_, ?_, ?_⟩
  · rw [hz, List.length_zipWith]
  · intro i x y hx hy
    rw [hz, List.getElem?_zipWith, hx, hy]
  · intro i hi
    rw [hz, List.getElem?_eq_none]
    rw [List.length_zipWith]
    exact hi
  · simp [Zip, zipLoop]
  · cases s1 <;> simp [Zip, zipLoop]

/-! ## `Max` and `Min` -/

/-- The selection made by `Reduce` with a step that moves to the current item
when `pick prev cur` holds: the result is the start or one of the items, and
it stands in the relation `dom` to the start and to every item, provided `dom`
is kept by a move and holds where no move is made. -/
theorem Reduce_select {T : Type} (pick : T → T → Bool) (dom : T → T → Prop)
    (hmove : ∀ prev cur, pick prev cur = true → dom cur cur ∧ ∀ x, dom prev x → dom cur x)
    (hstay : ∀ prev cur, pick prev cur = false → dom prev cur)
    (data : List T) (start : T) (seen : List T)
    (hseen : ∀ x ∈ seen, dom start x) :
    ∃ r, Reduce data (fun prev cur => if pick prev cur then cur else prev) start = r ∧
      (r = start ∨ r ∈ data) ∧ (∀ x ∈ seen, dom r x) ∧ (∀ x ∈ data, dom r x) := by
  induction data generalizing start seen with
  | nil => exact ⟨start, rfl, Or.inl rfl, hseen, by simp⟩
  | cons cur rest ih =>
    cases hp : pick start cur with
    | true =>
      obtain ⟨hcc, hkeep⟩ := hmove start cur hp
      obtain ⟨r, hr, h1, h2, h3⟩ := ih cur (cur :: seen) (by
        intro x hx
        rcases List.mem_cons.mp hx with h1 | h1
        · rw [h1]; exact hcc
        · exact hkeep x (hseen x h1))
      refine ⟨r, ?_, ?_, ?_, ?_⟩
      · rw [Reduce]
        simp only [hp, if_true]
        exact hr
      · rcases h1 with h1 | h1
        · exact Or.inr (by rw [h1]; exact List.mem_cons_self _ _)
        · exact Or.inr (List.mem_cons_of_mem _ h1)
      · intro x hx
        exact h2 x (List.mem_cons_of_mem _ hx)
      · intro x hx
        rcases List.mem_cons.mp hx with h4 | h4
        · rw [h4]; exact h2 cur (List.mem_cons_self _ _)
        · exact h3 x h4
    | false =>
      have hsc := hstay start cur hp
      obtain ⟨r, hr, h1, h2, h3⟩ := ih start (cur :: seen) (by
        intro x hx
        rcases List.mem_cons.mp hx with h1 | h1
        · rw [h1]; exact hsc
        · exact hseen x h1)
      refine ⟨r, ?_, ?_, ?_, ?_⟩
      · rw [Reduce]
        simp only [hp, Bool.false_eq_true, if_false]
        exact hr
      · rcases h1 with h1 | h1
        · exact Or.inl h1
        · exact Or.inr (List.mem_cons_of_mem _ h1)
      · intro x hx
        exact h2 x (List.mem_cons_of_mem _ hx)
      · intro x hx
        rcases List.mem_cons.mp hx with h4 | h4
        · rw [h4]; exact h2 cur (List.mem_cons_self _ _)
        · exact h3 x h4

theorem IsStrictTotalOrder.asymm {T : Type} {lessFunc : T → T → Bool}
    (h : IsStrictTotalOrder lessFunc) (a b : T) (hab : lessFunc a b = true) :
    lessFunc b a = false := by
  cases hba : lessFunc b a with
  | false => rfl
  | true =>
    have := h.2.1 a b a hab hba
    rw [h.1 a] at this
    exact absurd this (by simp)

theorem Less_int_strictTotal : IsStrictTotalOrder (Less : Int → Int → Bool) := by
  refine ⟨?_, ?_, ?_⟩
  · intro a
    simp [Less]
  · intro a b c hab hbc
    simp only [Less, decide_eq_true_eq] at hab hbc ⊢
    omega
  · intro a b hne
    simp only [Less, decide_eq_true_eq]
    omega

theorem Greater_int_strictTotal : IsStrictTotalOrder (Greater : Int → Int → Bool) := by
  refine ⟨?_, ?_, ?_⟩
  · intro a
    simp [Greater]
  · intro a b c hab hbc
    simp only [Greater, decide_eq_true_eq] at hab hbc ⊢
    omega
  · intro a b hne
    simp only [Greater, decide_eq_true_eq]
    omega

/-- Claim C15: for a non-empty argument list and a comparison that is a
strict total order, `Max` returns an element `m` of the list that no element
of the list lies strictly above: `lessFunc(m, x)` is false for every `x` of
the list. -/
theorem Max_is_greatest {T : Type} (lessFunc : T → T → Bool) (data : List T)
    (hne : data ≠ []) (hord : IsStrictTotalOrder lessFunc) :
    ∃ m, Max lessFunc data = .ok m ∧ m ∈ data ∧ ∀ x ∈ data, lessFunc m x = false := by
  cases data with
  | nil => exact absurd rfl hne
  | cons first rest =>
    have h := Reduce_select lessFunc (fun r x => lessFunc r x = false)
      (by
        intro prev cur hp
        refine ⟨hord.1 cur, ?_⟩
        intro x hx
        cases hcx : lessFunc cur x with
        | false => rfl
        | true =>
          have := hord.2.1 prev cur x hp hcx
          rw [hx] at this
          exact absurd this (by simp))
      (by intro prev cur hp; exact hp)
      (first :: rest) first [] (by simp)
    obtain ⟨r, hr, h1, _, h3⟩ := h
    refine ⟨r, ?_, ?_, h3⟩
    · simp only [Max]
      rw [hr]
    · rcases h1 with h1 | h1
      · rw [h1]; exact List.mem_cons_self _ _
      · exact h1

/-- Witness for claim C15, at the two cases of `TestFindMax`:
`Max(Less, 1, 2, 3) = 3` and `Max(Greater, -2147483648, 1, 2, 3) = -2147483648`. -/
theorem Max_is_greatest_witness :
    (([1, 2, 3] : List Int) ≠ [] ∧ IsStrictTotalOrder (Less : Int → Int → Bool)) ∧
    Max Less ([1, 2, 3] : List Int) = .ok 3 ∧
    Max Greater ([-2147483648, 1, 2, 3] : List Int) = .ok (-2147483648) ∧
    ∃ m, Max Less ([1, 2, 3] : List Int) = .ok m ∧ m ∈ ([1, 2, 3] : List Int) ∧
      ∀ x ∈ ([1, 2, 3] : List Int), Less m x = false :=
  ⟨⟨by simp, Less_int_strictTotal⟩, rfl, rfl,
    Max_is_greatest Less [1, 2, 3] (by simp) Less_int_strictTotal⟩

/-- Claim C16: for a non-empty argument list and a comparison that is a
strict total order, `Min`, which is `Max` over the negated comparison, returns
an element `m` of the list that no element of the list lies strictly below:
`lessFunc(x, m)` is false for every `x` of the list. -/
theorem Min_is_least {T : Type} (lessFunc : T → T → Bool) (data : List T)
    (hne : data ≠ []) (hord : IsStrictTotalOrder lessFunc) :
    ∃ m, Min lessFunc data = .ok m ∧ m ∈ data ∧ ∀ x ∈ data, lessFunc x m = false := by
  cases data with
  | nil => exact absurd rfl hne
  | cons first rest =>
    have h := Reduce_select (fun a b => !lessFunc a b) (fun r x => lessFunc x r = false)
      (by
        intro prev cur hp
        have hpc : lessFunc prev cur = false := by simpa using hp
        refine ⟨hord.1 cur, ?_⟩
        intro x hx
        cases hxc : lessFunc x cur with
        | false => rfl
        | true =>
          by_cases heq : prev = cur
          · rw [heq] at hx
            rw [hx] at hxc
            exact absurd hxc (by simp)
          · rcases hord.2.2 prev cur heq with h1 | h1
            · rw [hpc] at h1
              exact absurd h1 (by simp)
            · have := hord.2.1 x cur prev hxc h1
              rw [hx] at this
              exact absurd this (by simp))
      (by
        intro prev cur hp
        have hpc : lessFunc prev cur = true := by simpa using hp
        exact hord.asymm prev cur hpc)
      (first :: rest) first [] (by simp)
    obtain ⟨r, hr, h1, _, h3⟩ := h
    refine ⟨r, ?_, ?_, h3⟩
    · simp only [Min, Max]
      rw [hr]
    · rcases h1 with h1 | h1
      · rw [h1]; exact List.mem_cons_self _ _
      · exact h1

/-- Witness for claim C16, at the two cases of `TestFindMin`:
`Min(Less, 1, 2, 3) = 1` and `Min(Greater, 2147483647, 1, 2, 3) = 2147483647`. -/
theorem Min_is_least_witness :
    (([2147483647, 1, 2, 3] : List Int) ≠ [] ∧
      IsStrictTotalOrder (Greater : Int → Int → Bool)) ∧
    Min Less ([1, 2, 3] : List Int) = .ok 1 ∧
    Min Greater ([2147483647, 1, 2, 3] : List Int) = .ok 2147483647 ∧
    ∃ m, Min Greater ([2147483647, 1, 2, 3] : List Int) = .ok m ∧
      m ∈ ([2147483647, 1, 2, 3] : List Int) ∧
      ∀ x ∈ ([2147483647, 1, 2, 3] : List Int), Greater x m = false :=
  ⟨⟨by simp, Greater_int_strictTotal⟩, rfl, rfl,
    Min_is_least Greater [2147483647, 1, 2, 3] (by simp) Greater_int_strictTotal⟩

/-! ## `UniqueWithEqFun` -/

theorem noneEqual_iff {T : Type} (eqFun : T → T → Bool) (item : T) (result : List T) :
    noneEqual eqFun item result = true ↔ ∀ y ∈ result, eqFun item y = false := by
  induction result with
  | nil => simp [noneEqual]
  | cons y rest ih =>
    cases hy : eqFun item y with
    | true => simp [noneEqual, hy]
    | false => simp [noneEqual, hy, ih]

theorem uniqueLoop_append {T : Type} (eqFun : T → T → Bool) (xs ys result : List T) :
    uniqueLoop eqFun (xs ++ ys) result = uniqueLoop eqFun ys (uniqueLoop eqFun xs result) := by
  induction xs generalizing result with
  | nil => simp [uniqueLoop]
  | cons x rest ih =>
    simp only [List.cons_append, uniqueLoop]
    split <;> exact ih _

theorem uniqueLoop_sublist {T : Type} (eqFun : T → T → Bool) (data result : List T) :
    ∃ added, uniqueLoop eqFun data result = result ++ added ∧ added.Sublist data := by
  induction data generalizing result with
  | nil => exact ⟨[], by simp [uniqueLoop], List.Sublist.refl _⟩
  | cons x rest ih =>
    simp only [uniqueLoop]
    split
    · obtain ⟨added, h1, h2⟩ := ih (result ++ [x])
      exact ⟨x :: added, by simp [h1], h2.cons₂ x⟩
    · obtain ⟨added, h1, h2⟩ := ih result
      exact ⟨added, h1, h2.cons x⟩

theorem uniqueLoop_pairwise {T : Type} (eqFun : T → T → Bool) (data result : List T)
    (hres : result.Pairwise (fun x y => eqFun y x = false)) :
    (uniqueLoop eqFun data result).Pairwise (fun x y => eqFun y x = false) := by
  induction data generalizing result with
  | nil => simpa [uniqueLoop] using hres
  | cons x rest ih =>
    simp only [uniqueLoop]
    split
    · rename_i hnone
      apply ih
      rw [List.pairwise_append]
      refine ⟨hres, by simp, ?_⟩
      intro a ha b hb
      simp only [List.mem_singleton] at hb
      rw [hb]
      exact (noneEqual_iff eqFun x result).mp hnone a ha
    · exact ih result hres

theorem uniqueLoop_covers {T : Type} (eqFun : T → T → Bool) (hrefl : ∀ a, eqFun a a = true)
    (data result : List T) :
    ∀ y ∈ data, ∃ x ∈ uniqueLoop eqFun data result, eqFun y x = true := by
  induction data generalizing result with
  | nil => simp
  | cons x rest ih =>
    intro y hy
    simp only [uniqueLoop]
    rcases List.mem_cons.mp hy with h1 | h1
    · subst h1
      split
      · obtain ⟨added, h2, _⟩ := uniqueLoop_sublist eqFun rest (result ++ [y])
        exact ⟨y, by rw [h2]; simp, hrefl y⟩
      · rename_i hnone
        have hex : ∃ z ∈ result, eqFun y z = true := by
          by_contra hc
          apply hnone
          rw [noneEqual_iff]
          intro z hz
          cases hzz : eqFun y z with
          | false => rfl
          | true => exact absurd ⟨z, hz, hzz⟩ hc
        obtain ⟨z, hz, hzz⟩ := hex
        obtain ⟨added, h2, _⟩ := uniqueLoop_sublist eqFun rest result
        exact ⟨z, by rw [h2]; exact List.mem_append_left _ hz, hzz⟩
    · split
      · exact ih _ y h1
      · exact ih _ y h1

theorem uniqueLoop_keeps_first {T : Type} (eqFun : T → T → Bool) (pre post : List T) (x : T)
    (hfirst : ∀ y ∈ pre, eqFun x y = false) :
    x ∈ uniqueLoop eqFun (pre ++ x :: post) [] := by
  rw [uniqueLoop_append]
  obtain ⟨added, h1, h2⟩ := uniqueLoop_sublist eqFun pre []
  simp only [List.nil_append] at h1
  have hnone : noneEqual eqFun x (uniqueLoop eqFun pre []) = true := by
    rw [noneEqual_iff]
    intro y hy
    rw [h1] at hy
    exact hfirst y (h2.subset hy)
  simp only [uniqueLoop, hnone, if_true]
  obtain ⟨added2, h3, _⟩ := uniqueLoop_sublist eqFun post (uniqueLoop eqFun pre [] ++ [x])
  rw [h3]
  simp

theorem sameParity_equivalence : IsEquivalence sameParity := by
  refine ⟨?_, ?_, ?_⟩
  · intro a
    simp [sameParity]
  · intro a b hab
    simp only [sameParity, decide_eq_true_eq] at hab ⊢
    omega
  · intro a b c hab hbc
    simp only [sameParity, decide_eq_true_eq] at hab hbc ⊢
    omega

/-- Claim C17: for an `eqFun` that is an equivalence relation,
`UniqueWithEqFun` deduplicates `data`: the result is a subsequence of `data`
(relative order kept), no two elements at different positions of the result
are related by `eqFun`, every element of `data` is related to an element of
the result, and the representative kept for an element is the first element
of `data` related to it. -/
theorem UniqueWithEqFun_dedup {T : Type} (data : List T) (eqFun : T → T → Bool)
    (heq : IsEquivalence eqFun) :
    (UniqueWithEqFun data eqFun).Sublist data ∧
    (UniqueWithEqFun data eqFun).Pairwise
      (fun x y => eqFun x y = false ∧ eqFun y x = false) ∧
    (∀ y ∈ data, ∃ x ∈ UniqueWithEqFun data eqFun, eqFun y x = true) ∧
    (∀ y ∈ data, ∃ x, data.find? (fun z => eqFun y z) = some x ∧
      x ∈ UniqueWithEqFun data eqFun) := by
  obtain ⟨hrefl, hsymm, htrans⟩ := heq
  have hfind : ∀ y ∈ data, ∃ x pre post, data.find? (fun z => eqFun y z) = some x ∧
      data = pre ++ x :: post ∧ ∀ z ∈ pre, eqFun x z = false := by
    intro y hy
    cases hf : data.find? (fun z => eqFun y z) with
    | none =>
      rw [List.find?_eq_none] at hf
      exact absurd (hrefl y) (hf y hy)
    | some x =>
      obtain ⟨hyx, pre, post, hsplit, hpre⟩ := List.find?_eq_some.mp hf
      refine ⟨x, pre, post, rfl, hsplit, ?_⟩
      intro z hz
      cases hxz : eqFun x z with
      | false => rfl
      | true =>
        have h1 := htrans y x z hyx hxz
        have h2 := hpre z hz
        simp only [h1, Bool.not_true] at h2
        exact absurd h2 (by simp)
  by_cases hlen : data.length < 2
  · simp only [UniqueWithEqFun, hlen, if_true]
    refine ⟨List.Sublist.refl _, ?_, ?_, ?_⟩
    · match data, hlen with
      | [], _ => simp
      | [_], _ => simp
    · intro y hy
      exact ⟨y, hy, hrefl y⟩
    · intro y hy
      obtain ⟨x, _, _, hx, hsplit, _⟩ := hfind y hy
      exact ⟨x, hx, List.mem_of_find?_eq_some hx⟩
  · simp only [UniqueWithEqFun, hlen, if_false]
    refine ⟨?_, ?_, ?_, ?_⟩
    · obtain ⟨added, h1, h2⟩ := uniqueLoop_sublist eqFun data []
      rw [h1]
      simpa using h2
    · have h := uniqueLoop_pairwise eqFun data [] (by simp)
      apply h.imp
      intro a b hab
      refine ⟨?_, hab⟩
      cases hba : eqFun a b with
      | false => rfl
      | true =>
        have := hsymm a b hba
        rw [hab] at this
        exact absurd this (by simp)
    · exact uniqueLoop_covers eqFun hrefl data []
    · intro y hy
      obtain ⟨x, pre, post, hx, hsplit, hpre⟩ := hfind y hy
      refine ⟨x, hx, ?_⟩
      have := uniqueLoop_keeps_first eqFun pre post x hpre
      rw [← hsplit] at this
      exact this

/-- Witness for claim C17, at the numbers `[1, 3, 2, 5, 4]` compared by their
remainder modulo 2, of which the first odd and the first even one are kept. -/
theorem UniqueWithEqFun_dedup_witness :
    (IsEquivalence sameParity ∧
      UniqueWithEqFun ([1, 3, 2, 5, 4] : List Int) sameParity = [1, 2]) ∧
    ((UniqueWithEqFun ([1, 3, 2, 5, 4] : List Int) sameParity).Sublist [1, 3, 2, 5, 4] ∧
    (UniqueWithEqFun ([1, 3, 2, 5, 4] : List Int) sameParity).Pairwise
      (fun x y => sameParity x y = false ∧ sameParity y x = false) ∧
    (∀ y ∈ ([1, 3, 2, 5, 4] : List Int),
      ∃ x ∈ UniqueWithEqFun ([1, 3, 2, 5, 4] : List Int) sameParity, sameParity y x = true) ∧
    (∀ y ∈ ([1, 3, 2, 5, 4] : List Int),
      ∃ x, ([1, 3, 2, 5, 4] : List Int).find? (fun z => sameParity y z) = some x ∧
        x ∈ UniqueWithEqFun ([1, 3, 2, 5, 4] : List Int) sameParity)) :=
  ⟨⟨sameParity_equivalence, by decide⟩,
    UniqueWithEqFun_dedup [1, 3, 2, 5, 4] sameParity sameParity_equivalence⟩

/-! ## Fields stored under the same name -/

theorem Reduce_append {T U : Type} (xs ys : List T) (fn : U → T → U) (init : U) :
    Reduce (xs ++ ys) fn init = Reduce ys fn (Reduce xs fn init) := by
  induction xs generalizing init with
  | nil => simp [Reduce]
  | cons x rest ih => simp [Reduce, ih]

/-- Claim C20: `Foldl` equals `Reduce` over the reversed arguments, so it
combines the elements from the last to the first, and `FoldR` equals `Reduce`
over the arguments as given, combining them from the first to the last. -/
theorem Foldl_FoldR_Reduce {T U : Type} (init : U) (fn : U → T → U) (data : List T) :
    Foldl init fn data = Reduce data.reverse fn init ∧
    FoldR init fn data = Reduce data fn init ∧
    Foldl init fn data = combineFromLast init fn data ∧
    FoldR init fn data = combineFromFirst init fn data ∧
    (∀ x1 x2 x3 : T, Foldl init fn [x1, x2, x3] = fn (fn (fn init x3) x2) x1) ∧
    (∀ x1 x2 x3 : T, FoldR init fn [x1, x2, x3] = fn (fn (fn init x1) x2) x3) := by
  refine ⟨?_, ?_, ?_, ?_, fun _ _ _ => rfl, fun _ _ _ => rfl⟩
  · induction data with
    | nil => rfl
    | cons x rest ih =>
      rw [Foldl, List.reverse_cons, Reduce_append, ← ih]
      rfl
  · induction data generalizing init with
    | nil => rfl
    | cons x rest ih =>
      rw [FoldR, Reduce]
      exact ih (fn init x)
  · induction data with
    | nil => rfl
    | cons x rest ih =>
      rw [Foldl, ih]
      rfl
  · induction data generalizing init with
    | nil => rfl
    | cons x rest ih =>
      rw [FoldR, ih]
      rfl

end GoFunctools
